import Mathlib

/-! # m3u8 downloader: parser, key resolution, worker, scheduler, assembler

A shallow embedding of `src/main.go` and the properties of its parts.

Modelling conventions.

* A Go `string` holding manifest text is a list of Unicode code points
  (`Str`); the manifest is taken to be valid UTF-8, on which the byte-wise
  comparisons of Go and the rune-wise ones used here agree for the ASCII
  literals of the program.
* A `*Key` is an address into an explicit heap of `Key` records: `new(Key)`
  appends a record to the heap and yields its index, so pointer identity is
  index equality.
* A Go function that may return an error or fault at run time yields a result
  type with one constructor per way of ending.
* Raw bytes (segment bodies, key material, file contents) are lists of `UInt8`.
-/

namespace Hls

/-- Manifest text: a sequence of Unicode code points. -/
abbrev Str := List Char

/-- Raw bytes. -/
abbrev Bytes := List UInt8

/-! ## Library functions of Go used by the program -/

/-- Go `unicode.IsSpace`: the Latin-1 white space characters and the
`White_Space` code points above Latin-1. -/
def isSpace (c : Char) : Bool :=
  let n := c.toNat
  n == 0x09 || n == 0x0A || n == 0x0B || n == 0x0C || n == 0x0D || n == 0x20 ||
  n == 0x85 || n == 0xA0 || n == 0x1680 || (0x2000 ≤ n && n ≤ 0x200A) ||
  n == 0x2028 || n == 0x2029 || n == 0x202F || n == 0x205F || n == 0x3000

/-- Go `strings.TrimSpace`: drop leading and trailing white space. -/
def TrimSpace (s : Str) : Str :=
  ((s.dropWhile isSpace).reverse.dropWhile isSpace).reverse

/-- Go `strings.HasPrefix`. -/
def HasPrefix (s pre : Str) : Bool := pre.isPrefixOf s

/-- Go `strings.Trim(s, cutset)` for a one-character cutset. -/
def Trim (s : Str) (cut : Char) : Str :=
  ((s.dropWhile (· == cut)).reverse.dropWhile (· == cut)).reverse

/-- Go `strconv.Itoa` on a non-negative integer: its decimal digits. -/
def Itoa (i : Nat) : Str := Nat.toDigits 10 i

/-! ## Data model (`main.go` lines 18-48) -/

/-- Constant `CryptMethodAES`. -/
def CryptMethodAES : Str := "AES-128".toList

/-- Constant `CryptMethodNONE`. -/
def CryptMethodNONE : Str := "NONE".toList

/-- Struct `Key`. -/
structure Key where
  URI : Str
  IV : Str
  key : Str
  Method : Str
  deriving DecidableEq, Repr

/-- An address of a `Key` record in the heap (a `*Key` that is not nil). -/
abbrev KeyPtr := Nat

/-- Struct `Segment`; `Key = none` is the nil pointer. -/
structure Segment where
  URI : Str
  Key : Option KeyPtr
  deriving DecidableEq, Repr

/-- Struct `M3u8`; the nil slice and the empty slice are both `[]`
(`append` never yields an empty slice here, so `[]` is exactly nil). -/
structure M3u8 where
  Segments : List Segment
  MasterPlaylistURIs : List Str
  deriving DecidableEq, Repr

/-- The heap of `Key` records allocated by `new(Key)`. -/
abbrev Heap := List Key

/-! ## `parseLineParameters` (`main.go` lines 23, 272-279) -/

/-- Character class `[a-zA-Z-]` of `lineParameterPattern`. -/
def isNameChar (c : Char) : Bool :=
  ('a' ≤ c && c ≤ 'z') || ('A' ≤ c && c ≤ 'Z') || c == '-'

/-- Character class `[^"]`. -/
def notQuote (c : Char) : Bool := c != '"'

/-- Character class `[^",]`. -/
def isBareChar (c : Char) : Bool := c != '"' && c != ','

/-- One match of `([a-zA-Z-]+)=("[^"]+"|[^",]+)` anchored at the start of `s`:
group 1, group 2 and the text after the match. The greedy name run must be
followed by `=`; the quoted alternative is tried first, then the bare one. -/
def matchAt (s : Str) : Option (Str × Str × Str) :=
  let name := s.takeWhile isNameChar
  if name = [] then none
  else
    match s.dropWhile isNameChar with
    | '=' :: v =>
      match v with
      | '"' :: w =>
        let q := w.takeWhile notQuote
        match w.dropWhile notQuote with
        | '"' :: rest => if q = [] then none else some (name, '"' :: (q ++ ['"']), rest)
        | _ => none
      | _ =>
        let b := v.takeWhile isBareChar
        if b = [] then none else some (name, b, v.dropWhile isBareChar)
    | _ => none

/-- Go `FindAllStringSubmatch(line, -1)` for `lineParameterPattern`: the
successive leftmost matches, each search resuming where the previous match
ended. `skip` counts the characters of the current match still to be passed
over. Each item is (group 1, group 2). -/
def findAllFrom : Nat → Str → List (Str × Str)
  | _, [] => []
  | skip + 1, _ :: cs => findAllFrom skip cs
  | 0, c :: cs =>
    match matchAt (c :: cs) with
    | some (name, val, rest) =>
      (name, val) :: findAllFrom ((c :: cs).length - rest.length - 1) cs
    | none => findAllFrom 0 cs

/-- The submatches of `lineParameterPattern` in `line`. -/
def FindAllStringSubmatch (line : Str) : List (Str × Str) := findAllFrom 0 line

/-- A Go `map[string]string` as an association list with distinct keys. -/
abbrev Params := List (Str × Str)

/-- Map assignment `params[k] = v`. -/
def Params.set (m : Params) (k v : Str) : Params :=
  if m.any (fun e => e.1 == k) then m.map (fun e => if e.1 == k then (k, v) else e)
  else m ++ [(k, v)]

/-- Map read `params[k]`, the empty string when `k` is absent. -/
def Params.get (m : Params) (k : Str) : Str :=
  match m.find? (fun e => e.1 == k) with
  | some e => e.2
  | none => []

/-- Function `parseLineParameters`. -/
def parseLineParameters (line : Str) : Params :=
  (FindAllStringSubmatch line).foldl (fun params arr => params.set arr.1 (Trim arr.2 '"')) []

/-! ## `parseLines` (`main.go` lines 222-270) -/

/-- The errors `parseLines` returns. -/
inductive ParseError where
  | missingHeader
  | invalidKey (line : Str) (lineNo : Nat)
  | invalidMethod (method : Str) (lineNo : Nat)
  deriving DecidableEq, Repr

/-- How a call of `parseLines` ends: it returns a playlist (with the heap of
keys it allocated), returns an error, faults on an index out of range, or the
model runs out of fuel (which `parseLines` never does, see `parseLines_fuel`). -/
inductive ParseResult where
  | ok (m3u8 : M3u8) (heap : Heap)
  | error (e : ParseError)
  | indexOutOfRange (index len : Nat)
  | outOfFuel
  deriving DecidableEq, Repr

/-- The local variables of `parseLines` other than `i`. -/
structure ParseState where
  m3u8 : M3u8
  key : Option KeyPtr
  heap : Heap
  deriving DecidableEq, Repr

/-- The `for ; i < lineLen; i++` loop of `parseLines`, entered with loop
variable `i`. Every iteration uses one unit of fuel. -/
def parseLoop (lines : List Str) : Nat → Nat → ParseState → ParseResult
  | fuel, i, st =>
    if i < lines.length then
      match fuel with
      | 0 => .outOfFuel
      | fuel + 1 =>
        match lines[i]? with
        | none => .indexOutOfRange i lines.length
        | some raw =>
          let line := TrimSpace raw
          if i = 0 then
            if "#EXTM3U".toList ≠ line then .error .missingHeader
            else parseLoop lines fuel (i + 1) st
          else if line = [] then parseLoop lines fuel (i + 1) st
          else if HasPrefix line "#EXT-X-STREAM-INF:".toList then
            match lines[i + 1]? with
            | none => .indexOutOfRange (i + 1) lines.length
            | some uri =>
              parseLoop lines fuel (i + 1 + 1)
                { st with m3u8 := { st.m3u8 with
                    MasterPlaylistURIs := st.m3u8.MasterPlaylistURIs ++ [uri] } }
          else if !HasPrefix line "#".toList then
            parseLoop lines fuel (i + 1)
              { st with m3u8 := { st.m3u8 with
                  Segments := st.m3u8.Segments ++ [{ URI := line, Key := st.key }] } }
          else if HasPrefix line "#EXT-X-KEY".toList then
            let params := parseLineParameters line
            if params.length = 0 then .error (.invalidKey line (i + 1))
            else
              let method := params.get "METHOD".toList
              if method ≠ [] ∧ method ≠ CryptMethodAES ∧ method ≠ CryptMethodNONE then
                .error (.invalidMethod method (i + 1))
              else
                parseLoop lines fuel (i + 1)
                  { st with
                    key := some st.heap.length
                    heap := st.heap ++ [{ URI := params.get "URI".toList,
                                          IV := params.get "IV".toList,
                                          key := [],
                                          Method := method }] }
          else parseLoop lines fuel (i + 1) st
    else .ok st.m3u8 st.heap

/-- Function `parseLines`. The loop runs at most `len(lines)` iterations. -/
def parseLines (lines : List Str) : ParseResult :=
  parseLoop lines lines.length 0
    { m3u8 := { Segments := [], MasterPlaylistURIs := [] }, key := none, heap := [] }

/-! ## Key resolution in `fromURL` (`main.go` lines 183-219) -/

/-- A Go `map[*Key]string`: at most one entry per key address. The fetched
secret is kept as the bytes the Go string holds. -/
abbrev KeyTable := List (KeyPtr × Bytes)

/-- Test `_, ok := result.Keys[p]`. -/
def KeyTable.has (t : KeyTable) (p : KeyPtr) : Bool := t.any (fun e => e.1 == p)

/-- Map assignment `result.Keys[p] = v`. -/
def KeyTable.set (t : KeyTable) (p : KeyPtr) (v : Bytes) : KeyTable :=
  if t.has p then t.map (fun e => if e.1 == p then (p, v) else e) else t ++ [(p, v)]

/-- Map read `result.Keys[p]`, the empty string when `p` is absent. -/
def KeyTable.get (t : KeyTable) (p : KeyPtr) : Bytes :=
  match t.find? (fun e => e.1 == p) with
  | some e => e.2
  | none => []

/-- A response body: what `ioutil.ReadAll` yields on it. -/
abbrev Body := Except Str Bytes

/-- The network as `fromURL` sees it: `tool.Get` maps a URL to an error or a
response body. -/
abbrev Fetch := Str → Except Str Body

/-- The errors of the part of `fromURL` that follows parsing. -/
inductive ResolveError where
  | noSegment
  | extractKeyFailed (msg : Str)
  | readFailed (msg : Str)
  | unsupportedMethod (method : Str)
  deriving DecidableEq, Repr

/-- How the key phase ends. `danglingKey` stands for the use of a key address
outside the heap, which no `*Key` of the program is. -/
inductive ResolveResult where
  | ok (keys : KeyTable)
  | error (e : ResolveError)
  | danglingKey (p : KeyPtr)
  deriving DecidableEq, Repr

/-- The loop `for _, seg := range m3u8.Segments` of `fromURL` (lines 193-218),
run on the remaining segments with the table built so far. The second
component is the list of URLs handed to `tool.Get`, oldest first. -/
def fromURL_keyLoop (ResolveURL : Str → Str → Str) (Get : Fetch) (u : Str) (heap : Heap) :
    List Segment → KeyTable → List Str → ResolveResult × List Str
  | [], keys, log => (.ok keys, log)
  | seg :: segs, keys, log =>
    match seg.Key with
    | none => fromURL_keyLoop ResolveURL Get u heap segs keys log
    | some p =>
      match heap[p]? with
      | none => (.danglingKey p, log)
      | some k =>
        if k.Method = [] ∨ k.Method = CryptMethodNONE then
          fromURL_keyLoop ResolveURL Get u heap segs keys log
        else if k.Method = CryptMethodAES then
          if keys.has p then fromURL_keyLoop ResolveURL Get u heap segs keys log
          else
            let keyURL := ResolveURL u k.URI
            match Get keyURL with
            | .error e => (.error (.extractKeyFailed e), log ++ [keyURL])
            | .ok resp =>
              match resp with
              | .error e => (.error (.readFailed e), log ++ [keyURL])
              | .ok keyByte =>
                fromURL_keyLoop ResolveURL Get u heap segs (keys.set p keyByte)
                  (log ++ [keyURL])
        else (.error (.unsupportedMethod k.Method), log)

/-- The part of `fromURL` reached with a parsed media playlist (lines 183-219):
the empty-playlist check, then the key loop on an empty table. -/
def fromURL_media (ResolveURL : Str → Str → Str) (Get : Fetch) (u : Str) (m3u8 : M3u8)
    (heap : Heap) : ResolveResult × List Str :=
  if m3u8.Segments.length = 0 then (.error .noSegment, [])
  else fromURL_keyLoop ResolveURL Get u heap m3u8.Segments [] []

/-! ## `downTs` (`main.go` lines 104-156) -/

/-- The sync byte `uint8(71)`. -/
def syncByte : UInt8 := 71

/-- The scan of lines 136-143: the first index `j < bLen` with
`bytes[j] == syncByte` cuts the slice to `bytes[j:]` and ends the loop; with no
such index the slice is left as it is. -/
def syncScan (bytes : Bytes) : Bytes :=
  match (List.range bytes.length).find? (fun j => bytes[j]? == some syncByte) with
  | some j => bytes.drop j
  | none => bytes

/-- A decryption routine in the shape of `tool.AES128Decrypt`: from the
ciphertext, the key bytes and the IV text to the returned slice and the
returned error (`none` is the nil error). -/
abbrev Decrypt := Bytes → Bytes → Str → Bytes × Option Str

/-- Struct `Result`, with the heap its `*Key` values point into. -/
structure Result where
  URL : Str
  M3u8 : M3u8
  Keys : KeyTable
  heap : Heap

/-- Lines 127-135 of `downTs`: the value of `bytes` after the decryption
block, given the body read at line 122. `none` stands for the use of a key
address outside the heap. -/
def decryptStage (AES128Decrypt : Decrypt) (result : Result) (s : Segment) (bytes : Bytes) :
    Option Bytes :=
  match s.Key with
  | none => some bytes
  | some p =>
    let key := result.Keys.get p
    if key ≠ [] then
      match result.heap[p]? with
      | none => none
      | some k => some (AES128Decrypt bytes key k.IV).1
    else some bytes

/-- What the environment answers during one pass through the body of
`downTs`: the outcome of `tool.Get` with `ioutil.ReadAll`, of `os.Create`, of
`Write` and of `os.Rename` (`true` is success). -/
structure Attempt where
  get : Except Str Body
  create : Bool
  write : Bool
  rename : Bool

/-- How a call of `downTs` ends: segment file `{i}.ts` holds `file` after the
given number of restarts, or a fault, or the model runs out of fuel. -/
inductive DownResult where
  | done (restarts : Nat) (file : Bytes)
  | danglingKey
  | outOfFuel
  deriving DecidableEq, Repr

/-- Function `downTs`. `env n` answers the pass made after `n` restarts; every
failing step calls `downTs` again, which costs one unit of fuel. -/
def downTs (AES128Decrypt : Decrypt) (env : Nat → Attempt) (result : Result) (s : Segment) :
    Nat → Nat → DownResult
  | 0, _ => .outOfFuel
  | fuel + 1, n =>
    match (env n).get with
    | .error _ => downTs AES128Decrypt env result s fuel (n + 1)
    | .ok body =>
      if !(env n).create then downTs AES128Decrypt env result s fuel (n + 1)
      else
        match body with
        | .error _ => downTs AES128Decrypt env result s fuel (n + 1)
        | .ok bytes =>
          match decryptStage AES128Decrypt result s bytes with
          | none => .danglingKey
          | some bytes =>
            let bytes := syncScan bytes
            if !(env n).write then downTs AES128Decrypt env result s fuel (n + 1)
            else if !(env n).rename then downTs AES128Decrypt env result s fuel (n + 1)
            else .done n bytes

/-! ## The scheduler loop of `main` (`main.go` lines 65-80) -/

/-- Capacity of `limitChan`. -/
def limitCap : Nat := 20

/-- Where the orchestrator stands: at the head of the `for` loop, at the send
`limitChan <- 1`, at `wg.Wait()`, or past it. -/
inductive Pc where
  | loopHead
  | send
  | wait
  | joined
  deriving DecidableEq, Repr

/-- State of the scheduler: the orchestrator's position and loop variable, the
segment indices handed to the goroutines started so far, the wait-group
counter, the number of workers that have returned from `downTs` (finished),
the number of those that have also taken their token, and the number of tokens
held in `limitChan`. -/
structure Sched where
  pc : Pc
  idx : Nat
  workers : List Nat
  wg : Nat
  finished : Nat
  received : Nat
  tokens : Nat
  deriving DecidableEq, Repr

/-- The atomic steps of the orchestrator and of the worker goroutines. -/
inductive Action where
  | launch
  | send
  | leaveLoop
  | join
  | finish
  | receive
  deriving DecidableEq, Repr

/-- One step on a playlist of `n` segments; `none` when the step is not
enabled (a send on a full channel and a receive on an empty one block).

* `launch`: `wg.Add(1)` and the `go` statement for segment `idx`;
* `send`: `limitChan <- 1`, after which the loop moves to the next segment;
* `leaveLoop`: the loop ends; `join`: `wg.Wait()` returns;
* `finish`: a running worker returns from `downTs` and calls `wg.Done()`;
* `receive`: a finished worker executes `<-limitChan` and exits. -/
def step (n : Nat) : Action → Sched → Option Sched
  | .launch, s =>
    if s.pc = .loopHead ∧ s.idx < n then
      some { s with pc := .send, workers := s.workers ++ [s.idx], wg := s.wg + 1 }
    else none
  | .send, s =>
    if s.pc = .send ∧ s.tokens < limitCap then
      some { s with pc := .loopHead, idx := s.idx + 1, tokens := s.tokens + 1 }
    else none
  | .leaveLoop, s =>
    if s.pc = .loopHead ∧ ¬ s.idx < n then some { s with pc := .wait } else none
  | .join, s =>
    if s.pc = .wait ∧ s.wg = 0 then some { s with pc := .joined } else none
  | .finish, s =>
    if s.finished < s.workers.length then
      some { s with finished := s.finished + 1, wg := s.wg - 1 }
    else none
  | .receive, s =>
    if s.received < s.finished ∧ 0 < s.tokens then
      some { s with received := s.received + 1, tokens := s.tokens - 1 }
    else none

/-- The workers launched and not yet finished. -/
def Sched.inFlight (s : Sched) : Nat := s.workers.length - s.finished

/-- State on entry to the loop. -/
def Sched.init : Sched :=
  { pc := .loopHead, idx := 0, workers := [], wg := 0, finished := 0, received := 0,
    tokens := 0 }

/-- Run a schedule, a list of steps, from a state. -/
def runSched (n : Nat) : List Action → Sched → Option Sched
  | [], s => some s
  | a :: as, s =>
    match step n a s with
    | some s1 => runSched n as s1
    | none => none

/-- A state some schedule reaches from the initial state. -/
def Reachable (n : Nat) (s : Sched) : Prop :=
  ∃ as : List Action, runSched n as Sched.init = some s

/-! ## The assembly loop of `main` (`main.go` lines 83-100) -/

/-- The files of the destination directory, by name. -/
abbrev Store := Str → Option Bytes

/-- Replace the contents of one file. -/
def Store.put (st : Store) (name : Str) (b : Bytes) : Store :=
  fun f => if f = name then some b else st f

/-- Name of the file of segment `i`: `strconv.Itoa(i)+".ts"`. -/
def tsName (i : Nat) : Str := Itoa i ++ ".ts".toList

/-- Name of the output file. -/
def mainName : Str := "main.mp4".toList

/-- Body of the loop at lines 89-99: read `{i}.ts`; when the read fails go on
to the next ordinal, else append the bytes to the output file. -/
def assembleStep (st : Store) (i : Nat) : Store :=
  match st (tsName i) with
  | none => st
  | some bytes => st.put mainName ((st mainName).getD [] ++ bytes)

/-- Lines 83-100: `os.Create` truncates the output file, then the loop runs
for `i = 0 .. segmentCount-1`. -/
def assemble (segmentCount : Nat) (st : Store) : Store :=
  (List.range segmentCount).foldl assembleStep (st.put mainName [])

/-! ## Notions the properties are stated with -/

/-- A trimmed line that is a segment URI: not blank and not starting with `#`. -/
def isSegmentLine (t : Str) : Bool := t != [] && !HasPrefix t "#".toList

/-- A trimmed line that starts with `#EXT-X-KEY`. -/
def isKeyTag (t : Str) : Bool := HasPrefix t "#EXT-X-KEY".toList

/-- A trimmed line that starts with `#EXT-X-STREAM-INF:`. -/
def isStreamInf (t : Str) : Bool := HasPrefix t "#EXT-X-STREAM-INF:".toList

/-- The lines of a manifest body without the redirect URI lines: a line that
directly follows a stream-info tag line is taken by that tag and left out (the
tag line itself stays). The flag says whether the previous line was such a
tag. -/
def dropRedirects : Bool → List Str → List Str
  | _, [] => []
  | true, _ :: rest => dropRedirects false rest
  | false, l :: rest => l :: dropRedirects (isStreamInf (TrimSpace l)) rest

/-- The trimmed lines after line 1 that the parser looks at as tags, blanks or
segment URIs. -/
def bodyLines (lines : List Str) : List Str :=
  (dropRedirects false lines.tail).map TrimSpace

/-- The trimmed lines after line 1, redirect URI lines included. -/
def allBodyLines (lines : List Str) : List Str := lines.tail.map TrimSpace

/-- The `Key` a key tag line describes: its METHOD, URI and IV attributes. -/
def keyOfTag (t : Str) : Key :=
  { URI := (parseLineParameters t).get "URI".toList,
    IV := (parseLineParameters t).get "IV".toList,
    key := [],
    Method := (parseLineParameters t).get "METHOD".toList }

/-- A key tag line the parser rejects: no attribute=value pair, or a METHOD
that is neither empty, `AES-128` nor `NONE`. -/
def isBadKeyTag (t : Str) : Bool :=
  isKeyTag t &&
    (decide ((parseLineParameters t).length = 0) ||
      decide ((parseLineParameters t).get "METHOD".toList ≠ [] ∧
        (parseLineParameters t).get "METHOD".toList ≠ CryptMethodAES ∧
        (parseLineParameters t).get "METHOD".toList ≠ CryptMethodNONE))

/-- Segments bound to their keys as the manifest prescribes: for every segment
line `t` of `ls`, with `pre` the lines before it, the segment at the ordinal of
`t` has URI `t`; when no key tag is in `pre` its `Key` is nil, else its `Key`
is the address allocated for the last key tag of `pre` (the addresses are
handed out in tag order) and the record there is the one that tag describes. -/
def KeysFollowTags (ls : List Str) (segs : List Segment) (heap : Heap) : Prop :=
  ∀ pre t post, ls = pre ++ t :: post → isSegmentLine t = true →
    ∃ s, segs[(pre.filter isSegmentLine).length]? = some s ∧ s.URI = t ∧
      match (pre.filter isKeyTag).getLast? with
      | none => s.Key = none
      | some kt =>
        s.Key = some ((pre.filter isKeyTag).length - 1) ∧
        heap[(pre.filter isKeyTag).length - 1]? = some (keyOfTag kt)

/-- The key addresses in order of first reference, each once. -/
def firstRefs : List KeyPtr → List KeyPtr
  | [] => []
  | p :: ps => p :: (firstRefs ps).filter (· != p)

/-- The addresses of the `AES-128` keys the segments reference, one per
reference, in segment order. -/
def aesRefs (heap : Heap) (segs : List Segment) : List KeyPtr :=
  (segs.filterMap (·.Key)).filter
    (fun p => match heap[p]? with
      | some k => k.Method == CryptMethodAES
      | none => false)

/-- The segments the parser appends for the trimmed lines `ls`, entered with
current key `cur` and next free heap address `next`. -/
def segsOf : Option KeyPtr → Nat → List Str → List Segment
  | _, _, [] => []
  | cur, next, t :: ts =>
    if isSegmentLine t then { URI := t, Key := cur } :: segsOf cur next ts
    else if isKeyTag t then segsOf (some next) (next + 1) ts
    else segsOf cur next ts

/-- What the parser loop is to deliver when entered with state `st` and the raw
lines `rest` still to read (none of them line 1). -/
def ParsePost (rest : List Str) (st : ParseState) : ParseResult → Prop
  | .ok m h =>
    ((dropRedirects false rest).map TrimSpace).any isBadKeyTag = false ∧
    m.Segments = st.m3u8.Segments ++
      segsOf st.key st.heap.length ((dropRedirects false rest).map TrimSpace) ∧
    h = st.heap ++ (((dropRedirects false rest).map TrimSpace).filter isKeyTag).map keyOfTag
  | .error _ => ((dropRedirects false rest).map TrimSpace).any isBadKeyTag = true
  | .indexOutOfRange _ _ => ∃ l ∈ rest, isStreamInf (TrimSpace l) = true
  | .outOfFuel => False

/-- The URL the key loop requests for the key at address `p`. -/
def keyURL (ResolveURL : Str → Str → Str) (u : Str) (heap : Heap) (p : KeyPtr) : Str :=
  match heap[p]? with
  | some k => ResolveURL u k.URI
  | none => []

/-- The fetch of `url` succeeds: `tool.Get` and `ioutil.ReadAll` both do. -/
def fetchSucceeds (Get : Fetch) (url : Str) : Bool :=
  match Get url with
  | .ok (.ok _) => true
  | _ => false

/-- The bytes a successful fetch of `url` delivers. -/
def fetchedBytes (Get : Fetch) (url : Str) : Bytes :=
  match Get url with
  | .ok (.ok b) => b
  | _ => []

/-! ## Sample manifests -/

/-- A media playlist with one key tag followed by three segments. -/
def keyedManifest : List Str :=
  ["#EXTM3U".toList, "#EXT-X-KEY:METHOD=AES-128,URI=\"key1\",IV=0x0102".toList,
   "seg1.ts".toList, "seg2.ts".toList, "seg3.ts".toList]

/-- The playlist `parseLines` returns on `keyedManifest`. -/
def keyedPlaylist : M3u8 :=
  { Segments := [{ URI := "seg1.ts".toList, Key := some 0 },
                 { URI := "seg2.ts".toList, Key := some 0 },
                 { URI := "seg3.ts".toList, Key := some 0 }],
    MasterPlaylistURIs := [] }

/-- The key heap `parseLines` returns on `keyedManifest`. -/
def keyedHeap : Heap :=
  [{ URI := "key1".toList, IV := "0x0102".toList, key := [], Method := CryptMethodAES }]

/-- A network that serves the key `key1` and nothing else. -/
def keyServer : Fetch := fun url =>
  if url = "key1".toList then .ok (.ok [1, 2, 3]) else .error "404".toList

/-- A URL resolution that keeps the reference as it is. -/
def plainResolve : Str → Str → Str := fun _ ref => ref


/-- A master playlist: header, one stream-info tag, its redirect URI. -/
def masterManifest : List Str :=
  ["#EXTM3U".toList, "#EXT-X-STREAM-INF:BANDWIDTH=1280000".toList, "low/index.m3u8".toList]

/-- A manifest whose key tag line is the redirect URI of a stream-info tag. -/
def shadowedKeyManifest : List Str :=
  ["#EXTM3U".toList, "#EXT-X-STREAM-INF:BANDWIDTH=1280000".toList,
   "#EXT-X-KEY:METHOD=AES-128,URI=\"key1\"".toList, "seg1.ts".toList]

/-- A manifest with a redirect, a plain segment, a key and two segments under
that key. -/
def mixedManifest : List Str :=
  ["#EXTM3U".toList, "#EXT-X-STREAM-INF:BANDWIDTH=1280000".toList, "low/index.m3u8".toList,
   " seg0.ts ".toList, "#EXT-X-KEY:METHOD=AES-128,URI=\"key1\",IV=0x0102".toList,
   "seg1.ts".toList, "".toList, "#EXTINF:10,".toList, "seg2.ts".toList]

/-- The playlist `parseLines` returns on `mixedManifest`. -/
def mixedPlaylist : M3u8 :=
  { Segments := [{ URI := "seg0.ts".toList, Key := none },
                 { URI := "seg1.ts".toList, Key := some 0 },
                 { URI := "seg2.ts".toList, Key := some 0 }],
    MasterPlaylistURIs := ["low/index.m3u8".toList] }

/-- The key heap `parseLines` returns on `mixedManifest`. -/
def mixedHeap : Heap :=
  [{ URI := "key1".toList, IV := "0x0102".toList, key := [], Method := CryptMethodAES }]

/-- A media playlist whose key tag has METHOD=AES-128 and no URI. -/
def noUriManifest : List Str :=
  ["#EXTM3U".toList, "#EXT-X-KEY:METHOD=AES-128".toList, "seg1.ts".toList]

/-- A manifest that ends with a stream-info tag. -/
def truncatedMaster : List Str :=
  ["#EXTM3U".toList, "#EXT-X-STREAM-INF:BANDWIDTH=1280000".toList]

/-- The schedule in which the orchestrator runs alone: twenty rounds of launch
and send, then the launch of the twenty-first worker. -/
def eagerSchedule : List Action :=
  (List.replicate 20 [Action.launch, Action.send]).flatten ++ [Action.launch]

/-- The invariant of the scheduler on `n` segments. -/
def SchedInv (n : Nat) (s : Sched) : Prop :=
  s.tokens + s.received = s.idx ∧ s.tokens ≤ limitCap ∧ s.received ≤ s.finished ∧
  s.finished ≤ s.workers.length ∧ s.wg = s.workers.length - s.finished ∧ s.idx ≤ n ∧
  (s.pc = .send → s.idx < n ∧ s.workers = List.range (s.idx + 1)) ∧
  (s.pc ≠ .send → s.workers = List.range s.idx) ∧
  ((s.pc = .wait ∨ s.pc = .joined) → s.idx = n) ∧
  (s.pc = .joined → s.wg = 0)

/-- A segment under the key at address 0. -/
def keyedSegment : Segment := { URI := "seg1.ts".toList, Key := some 0 }

/-- The resolution result for `keyedSegment`. -/
def keyedResult : Result :=
  { URL := "http://host/index.m3u8".toList,
    M3u8 := { Segments := [keyedSegment], MasterPlaylistURIs := [] },
    Keys := [(0, [1, 2, 3])],
    heap := [{ URI := "key1".toList, IV := [], key := [], Method := CryptMethodAES }] }

/-- A fetched body. -/
def sampleBody : Bytes := [71, 10, 20]

/-- An environment in which every step of `downTs` succeeds. -/
def calmEnv : Nat → Attempt := fun _ =>
  { get := .ok (.ok sampleBody), create := true, write := true, rename := true }

/-- A decryption routine that fails and returns the nil slice. -/
def failingDecrypt : Decrypt := fun _ _ _ => ([], some "bad key".toList)

/-- A store with three segment files and a stale output file. -/
def sampleStore : Store := fun f =>
  if f = "0.ts".toList then some [71, 1]
  else if f = "1.ts".toList then some []
  else if f = "2.ts".toList then some [71, 2, 3]
  else if f = "main.mp4".toList then some [9, 9]
  else none

/-- The contents of the segment files of `sampleStore`. -/
def sampleContent (i : Nat) : Bytes :=
  if i = 0 then [71, 1] else if i = 1 then [] else [71, 2, 3]

/-! # Properties -/

/-! ## Line classes -/

theorem streamInf_hash (t : Str) (h : isStreamInf t = true) : HasPrefix t "#".toList = true := by
  unfold isStreamInf HasPrefix at h
  rw [List.isPrefixOf_iff_prefix] at h
  obtain ⟨r, rfl⟩ := h
  rfl

theorem streamInf_not_keyTag (t : Str) (h : isStreamInf t = true) : isKeyTag t = false := by
  unfold isStreamInf HasPrefix at h
  rw [List.isPrefixOf_iff_prefix] at h
  obtain ⟨r, rfl⟩ := h
  rfl

theorem keyTag_hash (t : Str) (h : isKeyTag t = true) : HasPrefix t "#".toList = true := by
  unfold isKeyTag HasPrefix at h
  rw [List.isPrefixOf_iff_prefix] at h
  obtain ⟨r, rfl⟩ := h
  rfl

theorem segmentLine_iff (t : Str) :
    isSegmentLine t = true ↔ t ≠ [] ∧ HasPrefix t "#".toList = false := by
  simp [isSegmentLine]

theorem keyTag_not_segmentLine (t : Str) (h : isKeyTag t = true) : isSegmentLine t = false := by
  have h1 := keyTag_hash t h
  cases hs : isSegmentLine t with
  | false => rfl
  | true => rw [segmentLine_iff] at hs; rw [hs.2] at h1; cases h1

theorem streamInf_not_segmentLine (t : Str) (h : isStreamInf t = true) :
    isSegmentLine t = false := by
  have h1 := streamInf_hash t h
  cases hs : isSegmentLine t with
  | false => rfl
  | true => rw [segmentLine_iff] at hs; rw [hs.2] at h1; cases h1

/-! ## Unfolding the parser loop -/

theorem parseLoop_exit (lines : List Str) (fuel i : Nat) (st : ParseState)
    (h : ¬ i < lines.length) : parseLoop lines fuel i st = .ok st.m3u8 st.heap := by
  unfold parseLoop
  simp [h]

theorem parseLoop_step (lines : List Str) (fuel i : Nat) (st : ParseState) (raw : Str)
    (hi : i ≠ 0) (hraw : lines[i]? = some raw) :
    parseLoop lines (fuel + 1) i st =
      if TrimSpace raw = [] then parseLoop lines fuel (i + 1) st
      else if isStreamInf (TrimSpace raw) = true then
        match lines[i + 1]? with
        | none => .indexOutOfRange (i + 1) lines.length
        | some uri =>
          parseLoop lines fuel (i + 1 + 1)
            { st with m3u8 := { st.m3u8 with
                MasterPlaylistURIs := st.m3u8.MasterPlaylistURIs ++ [uri] } }
      else if isSegmentLine (TrimSpace raw) = true then
        parseLoop lines fuel (i + 1)
          { st with m3u8 := { st.m3u8 with
              Segments := st.m3u8.Segments ++ [{ URI := TrimSpace raw, Key := st.key }] } }
      else if isKeyTag (TrimSpace raw) = true then
        if isBadKeyTag (TrimSpace raw) = true then
          if (parseLineParameters (TrimSpace raw)).length = 0 then
            .error (.invalidKey (TrimSpace raw) (i + 1))
          else .error (.invalidMethod ((parseLineParameters (TrimSpace raw)).get "METHOD".toList)
                  (i + 1))
        else
          parseLoop lines fuel (i + 1)
            { st with key := some st.heap.length
                      heap := st.heap ++ [keyOfTag (TrimSpace raw)] }
      else parseLoop lines fuel (i + 1) st := by
  have hlt : i < lines.length := (List.getElem?_eq_some_iff.mp hraw).1
  rw [parseLoop]
  simp only [hlt, if_true, hraw, hi, if_false]
  by_cases hb : TrimSpace raw = []
  · rw [if_pos hb, if_pos hb]
  · rw [if_neg hb, if_neg hb]
    by_cases hs : isStreamInf (TrimSpace raw) = true
    · have hs2 : HasPrefix (TrimSpace raw) "#EXT-X-STREAM-INF:".toList = true := hs
      rw [if_pos hs2, if_pos hs]
    · have hs2 : ¬ HasPrefix (TrimSpace raw) "#EXT-X-STREAM-INF:".toList = true := hs
      rw [if_neg hs2, if_neg hs]
      by_cases hg : isSegmentLine (TrimSpace raw) = true
      · have hh := ((segmentLine_iff _).mp hg).2
        rw [if_pos hg, hh]
        rfl
      · have hh : HasPrefix (TrimSpace raw) "#".toList = true := by
          cases hx : HasPrefix (TrimSpace raw) "#".toList with
          | true => rfl
          | false => exact absurd ((segmentLine_iff _).mpr ⟨hb, hx⟩) hg
        rw [if_neg hg, hh]
        simp only [Bool.not_true, Bool.false_eq_true, if_false]
        by_cases hk : isKeyTag (TrimSpace raw) = true
        · have hk2 : HasPrefix (TrimSpace raw) "#EXT-X-KEY".toList = true := hk
          rw [if_pos hk2, if_pos hk]
          by_cases hbad : isBadKeyTag (TrimSpace raw) = true
          · rw [if_pos hbad]
            unfold isBadKeyTag at hbad
            simp only [hk, Bool.true_and, Bool.or_eq_true, decide_eq_true_eq] at hbad
            by_cases hl : (parseLineParameters (TrimSpace raw)).length = 0
            · rw [if_pos hl, if_pos hl]
            · have hm := hbad.resolve_left hl
              rw [if_neg hl, if_neg hl, if_pos hm]
          · rw [if_neg hbad]
            unfold isBadKeyTag at hbad
            simp only [hk, Bool.true_and, Bool.or_eq_true, decide_eq_true_eq, not_or] at hbad
            rw [if_neg hbad.1, if_neg hbad.2]
            rfl
        · have hk2 : ¬ HasPrefix (TrimSpace raw) "#EXT-X-KEY".toList = true := hk
          rw [if_neg hk2, if_neg hk]

/-! ## The loop meets its postcondition -/

theorem notKeyTag_notBad (t : Str) (h : isKeyTag t = false) : isBadKeyTag t = false := by
  unfold isBadKeyTag
  rw [h]
  rfl

theorem parsePost_skip (raw : Str) (rest : List Str) (st : ParseState) (r : ParseResult)
    (hinf : isStreamInf (TrimSpace raw) = false) (hseg : isSegmentLine (TrimSpace raw) = false)
    (hkey : isKeyTag (TrimSpace raw) = false) (h : ParsePost rest st r) :
    ParsePost (raw :: rest) st r := by
  have hbad := notKeyTag_notBad _ hkey
  cases r with
  | ok m hp =>
    simp only [ParsePost, dropRedirects, hinf, List.map_cons, List.any_cons, hbad,
      Bool.false_or, segsOf, hseg, hkey, Bool.false_eq_true, if_false, List.filter_cons] at h ⊢
    exact h
  | error e =>
    simp only [ParsePost, dropRedirects, hinf, List.map_cons, List.any_cons, hbad,
      Bool.false_or] at h ⊢
    exact h
  | indexOutOfRange a b =>
    obtain ⟨l, hl, hl2⟩ := h
    exact ⟨l, List.mem_cons_of_mem _ hl, hl2⟩
  | outOfFuel => exact h

theorem parsePost_segment (raw : Str) (rest : List Str) (st : ParseState) (r : ParseResult)
    (hseg : isSegmentLine (TrimSpace raw) = true)
    (h : ParsePost rest
      { st with m3u8 := { st.m3u8 with
          Segments := st.m3u8.Segments ++ [{ URI := TrimSpace raw, Key := st.key }] } } r) :
    ParsePost (raw :: rest) st r := by
  have hinf : isStreamInf (TrimSpace raw) = false := by
    cases hx : isStreamInf (TrimSpace raw) with
    | false => rfl
    | true => rw [streamInf_not_segmentLine _ hx] at hseg; cases hseg
  have hkey : isKeyTag (TrimSpace raw) = false := by
    cases hx : isKeyTag (TrimSpace raw) with
    | false => rfl
    | true => rw [keyTag_not_segmentLine _ hx] at hseg; cases hseg
  have hbad := notKeyTag_notBad _ hkey
  cases r with
  | ok m hp =>
    simp only [ParsePost, dropRedirects, hinf, List.map_cons, List.any_cons, hbad,
      Bool.false_or, segsOf, hseg, hkey, Bool.false_eq_true, if_false, if_true,
      List.filter_cons, List.append_assoc, List.singleton_append] at h ⊢
    exact h
  | error e =>
    simp only [ParsePost, dropRedirects, hinf, List.map_cons, List.any_cons, hbad,
      Bool.false_or] at h ⊢
    exact h
  | indexOutOfRange a b =>
    obtain ⟨l, hl, hl2⟩ := h
    exact ⟨l, List.mem_cons_of_mem _ hl, hl2⟩
  | outOfFuel => exact h

theorem parsePost_key (raw : Str) (rest : List Str) (st : ParseState) (r : ParseResult)
    (hkey : isKeyTag (TrimSpace raw) = true) (hbad : isBadKeyTag (TrimSpace raw) = false)
    (h : ParsePost rest
      { st with key := some st.heap.length
                heap := st.heap ++ [keyOfTag (TrimSpace raw)] } r) :
    ParsePost (raw :: rest) st r := by
  have hinf : isStreamInf (TrimSpace raw) = false := by
    cases hx : isStreamInf (TrimSpace raw) with
    | false => rfl
    | true => rw [streamInf_not_keyTag _ hx] at hkey; cases hkey
  have hseg := keyTag_not_segmentLine _ hkey
  cases r with
  | ok m hp =>
    simp only [ParsePost, dropRedirects, hinf, List.map_cons, List.any_cons, hbad,
      Bool.false_or, segsOf, hseg, hkey, Bool.false_eq_true, if_false, if_true,
      List.filter_cons, List.append_assoc, List.singleton_append, List.length_append,
      List.length_singleton] at h ⊢
    exact h
  | error e =>
    simp only [ParsePost, dropRedirects, hinf, List.map_cons, List.any_cons, hbad,
      Bool.false_or] at h ⊢
    exact h
  | indexOutOfRange a b =>
    obtain ⟨l, hl, hl2⟩ := h
    exact ⟨l, List.mem_cons_of_mem _ hl, hl2⟩
  | outOfFuel => exact h

theorem parsePost_streamInf (raw uri : Str) (rest : List Str) (st : ParseState)
    (r : ParseResult) (hinf : isStreamInf (TrimSpace raw) = true)
    (h : ParsePost rest
      { st with m3u8 := { st.m3u8 with
          MasterPlaylistURIs := st.m3u8.MasterPlaylistURIs ++ [uri] } } r) :
    ParsePost (raw :: uri :: rest) st r := by
  have hkey := streamInf_not_keyTag _ hinf
  have hseg := streamInf_not_segmentLine _ hinf
  have hbad := notKeyTag_notBad _ hkey
  cases r with
  | ok m hp =>
    simp only [ParsePost, dropRedirects, hinf, List.map_cons, List.any_cons, hbad,
      Bool.false_or, segsOf, hseg, hkey, Bool.false_eq_true, if_false, List.filter_cons] at h ⊢
    exact h
  | error e =>
    simp only [ParsePost, dropRedirects, hinf, List.map_cons, List.any_cons, hbad,
      Bool.false_or] at h ⊢
    exact h
  | indexOutOfRange a b =>
    obtain ⟨l, hl, hl2⟩ := h
    exact ⟨l, List.mem_cons_of_mem _ (List.mem_cons_of_mem _ hl), hl2⟩
  | outOfFuel => exact h

theorem parseLoop_post (lines : List Str) :
    ∀ (fuel i : Nat) (st : ParseState), i ≠ 0 → lines.length - i ≤ fuel →
      ParsePost (lines.drop i) st (parseLoop lines fuel i st) := by
  intro fuel
  induction fuel with
  | zero =>
    intro i st _ hf
    have hge : ¬ i < lines.length := by omega
    rw [parseLoop_exit lines 0 i st hge, List.drop_eq_nil_of_le (by omega)]
    simp [ParsePost, dropRedirects, segsOf]
  | succ fuel ih =>
    intro i st hi hf
    by_cases hlt : i < lines.length
    · have hraw : lines[i]? = some lines[i] := List.getElem?_eq_getElem hlt
      have hdrop : lines.drop i = lines[i] :: lines.drop (i + 1) :=
        List.drop_eq_getElem_cons hlt
      rw [parseLoop_step lines fuel i st lines[i] hi hraw, hdrop]
      by_cases hb : TrimSpace lines[i] = []
      · rw [if_pos hb]
        refine parsePost_skip _ _ _ _ ?_ ?_ ?_ (ih (i + 1) st (by omega) (by omega)) <;>
          rw [hb] <;> rfl
      · rw [if_neg hb]
        by_cases hs : isStreamInf (TrimSpace lines[i]) = true
        · rw [if_pos hs]
          by_cases hlt2 : i + 1 < lines.length
          · have hraw2 : lines[i + 1]? = some lines[i + 1] := List.getElem?_eq_getElem hlt2
            have hdrop2 : lines.drop (i + 1) = lines[i + 1] :: lines.drop (i + 1 + 1) :=
              List.drop_eq_getElem_cons hlt2
            rw [hraw2, hdrop2]
            exact parsePost_streamInf _ _ _ _ _ hs (ih (i + 1 + 1) _ (by omega) (by omega))
          · have hnone : lines[i + 1]? = none := List.getElem?_eq_none (by omega)
            rw [hnone]
            exact ⟨lines[i], List.mem_cons_self _ _, hs⟩
        · rw [if_neg hs]
          have hs2 : isStreamInf (TrimSpace lines[i]) = false := by
            simpa using hs
          by_cases hg : isSegmentLine (TrimSpace lines[i]) = true
          · rw [if_pos hg]
            exact parsePost_segment _ _ _ _ hg (ih (i + 1) _ (by omega) (by omega))
          · rw [if_neg hg]
            have hg2 : isSegmentLine (TrimSpace lines[i]) = false := by simpa using hg
            by_cases hk : isKeyTag (TrimSpace lines[i]) = true
            · rw [if_pos hk]
              by_cases hbad : isBadKeyTag (TrimSpace lines[i]) = true
              · rw [if_pos hbad]
                have hany : ((dropRedirects false (lines[i] :: lines.drop (i + 1))).map
                    TrimSpace).any isBadKeyTag = true := by
                  simp only [dropRedirects, List.map_cons, List.any_cons, hbad, Bool.true_or]
                split <;> exact hany
              · rw [if_neg hbad]
                have hbad2 : isBadKeyTag (TrimSpace lines[i]) = false := by simpa using hbad
                exact parsePost_key _ _ _ _ hk hbad2 (ih (i + 1) _ (by omega) (by omega))
            · rw [if_neg hk]
              have hk2 : isKeyTag (TrimSpace lines[i]) = false := by simpa using hk
              exact parsePost_skip _ _ _ _ hs2 hg2 hk2 (ih (i + 1) st (by omega) (by omega))
    · rw [parseLoop_exit lines _ i st hlt, List.drop_eq_nil_of_le (by omega)]
      simp [ParsePost, dropRedirects, segsOf]

theorem parseLines_nil : parseLines [] = .ok { Segments := [], MasterPlaylistURIs := [] } [] := by
  rfl

theorem parseLines_bad_header (raw : Str) (rest : List Str)
    (h : TrimSpace raw ≠ "#EXTM3U".toList) :
    parseLines (raw :: rest) = .error .missingHeader := by
  have h2 : "#EXTM3U".toList ≠ TrimSpace raw := fun e => h e.symm
  show parseLoop (raw :: rest) (rest.length + 1) 0 _ = _
  rw [parseLoop]
  simp only [List.length_cons, Nat.zero_lt_succ, if_true, List.getElem?_cons_zero, if_pos h2]

theorem parseLines_good_header (raw : Str) (rest : List Str)
    (h : TrimSpace raw = "#EXTM3U".toList) :
    parseLines (raw :: rest) =
      parseLoop (raw :: rest) rest.length 1
        { m3u8 := { Segments := [], MasterPlaylistURIs := [] }, key := none, heap := [] } := by
  have h2 : ¬ "#EXTM3U".toList ≠ TrimSpace raw := fun e => e h.symm
  show parseLoop (raw :: rest) (rest.length + 1) 0 _ = _
  rw [parseLoop]
  simp only [List.length_cons, Nat.zero_lt_succ, if_true, List.getElem?_cons_zero, if_neg h2]

theorem parseLines_post (raw : Str) (rest : List Str) (h : TrimSpace raw = "#EXTM3U".toList) :
    ParsePost rest { m3u8 := { Segments := [], MasterPlaylistURIs := [] }, key := none, heap := [] }
      (parseLines (raw :: rest)) := by
  rw [parseLines_good_header raw rest h]
  have := parseLoop_post (raw :: rest) rest.length 1
    { m3u8 := { Segments := [], MasterPlaylistURIs := [] }, key := none, heap := [] }
    (by omega) (by simp)
  simpa using this

/-- A successful parse: the header is in place (or there is no line at all) and
the result is the one the body lines prescribe. -/
theorem parseLines_ok (lines : List Str) (m : M3u8) (heap : Heap)
    (h : parseLines lines = .ok m heap) :
    (bodyLines lines).any isBadKeyTag = false ∧
    m.Segments = segsOf none 0 (bodyLines lines) ∧
    heap = ((bodyLines lines).filter isKeyTag).map keyOfTag := by
  cases lines with
  | nil =>
    rw [parseLines_nil] at h
    injection h with h1 h2
    subst h1 h2
    simp [bodyLines, dropRedirects, segsOf]
  | cons raw rest =>
    by_cases hh : TrimSpace raw = "#EXTM3U".toList
    · have hp := parseLines_post raw rest hh
      rw [h] at hp
      simpa [ParsePost, bodyLines] using hp
    · rw [parseLines_bad_header raw rest hh] at h
      cases h

/-! ## Segments and keys prescribed by the body lines -/

theorem segsOf_uri (ls : List Str) :
    ∀ (cur : Option KeyPtr) (next : Nat),
      (segsOf cur next ls).map (·.URI) = ls.filter isSegmentLine := by
  induction ls with
  | nil => intro cur next; rfl
  | cons t ts ih =>
    intro cur next
    by_cases hs : isSegmentLine t = true
    · simp only [segsOf, hs, if_true, List.map_cons, List.filter_cons, ih]
    · by_cases hk : isKeyTag t = true
      · simp only [segsOf, hs, hk, if_true, if_false, List.filter_cons, ih,
          Bool.false_eq_true]
      · simp only [segsOf, hs, hk, if_false, List.filter_cons, ih, Bool.false_eq_true]

theorem segsOf_split (pre : List Str) :
    ∀ (cur : Option KeyPtr) (next : Nat) (t : Str) (post : List Str),
      isSegmentLine t = true →
      (segsOf cur next (pre ++ t :: post))[(pre.filter isSegmentLine).length]? =
        some { URI := t,
               Key := if pre.filter isKeyTag = [] then cur
                      else some (next + (pre.filter isKeyTag).length - 1) } := by
  induction pre with
  | nil =>
    intro cur next t post ht
    simp [segsOf, ht]
  | cons a pre ih =>
    intro cur next t post ht
    by_cases hs : isSegmentLine a = true
    · have hk : isKeyTag a = false := by
        cases hx : isKeyTag a with
        | false => rfl
        | true => rw [keyTag_not_segmentLine _ hx] at hs; cases hs
      simp only [List.cons_append, segsOf, hs, if_true, List.filter_cons, hk,
        Bool.false_eq_true, if_false, List.length_cons, List.getElem?_cons_succ]
      exact ih cur next t post ht
    · by_cases hk : isKeyTag a = true
      · simp only [List.cons_append, segsOf, hs, hk, if_true, if_false, List.filter_cons,
          List.length_cons, Bool.false_eq_true]
        refine (ih (some next) (next + 1) t post ht).trans ?_
        by_cases he : pre.filter isKeyTag = []
        · simp [he]
        · have hpos : 0 < (pre.filter isKeyTag).length := List.length_pos.mpr he
          simp only [he, if_false, reduceCtorEq]
          have e : next + 1 + (pre.filter isKeyTag).length - 1 =
              next + ((pre.filter isKeyTag).length + 1) - 1 := by omega
          rw [e]
      · simp only [List.cons_append, segsOf, hs, hk, if_false, List.filter_cons,
          Bool.false_eq_true]
        exact ih cur next t post ht

theorem keysFollowTags_segsOf (ls : List Str) :
    KeysFollowTags ls (segsOf none 0 ls) ((ls.filter isKeyTag).map keyOfTag) := by
  intro pre t post hls ht
  subst hls
  refine ⟨_, segsOf_split pre none 0 t post ht, rfl, ?_⟩
  cases hK : (pre.filter isKeyTag).getLast? with
  | none =>
    have : pre.filter isKeyTag = [] := List.getLast?_eq_none_iff.mp hK
    simp [this]
  | some kt =>
    have hne : pre.filter isKeyTag ≠ [] := by
      intro e
      rw [e] at hK
      cases hK
    have hpos : 0 < (pre.filter isKeyTag).length := List.length_pos.mpr hne
    refine ⟨by simp [hne], ?_⟩
    rw [List.getLast?_eq_getElem?] at hK
    rw [List.filter_append, List.map_append, List.getElem?_append_left (by simp; omega),
      List.getElem?_map, hK]
    rfl

theorem dropRedirects_noInf (ls : List Str)
    (h : ∀ l ∈ ls, isStreamInf (TrimSpace l) = false) : dropRedirects false ls = ls := by
  induction ls with
  | nil => rfl
  | cons l rest ih =>
    have hl := h l (List.mem_cons_self _ _)
    simp only [dropRedirects, hl]
    rw [ih (fun x hx => h x (List.mem_cons_of_mem _ hx))]

theorem bodyLines_noInf (lines : List Str)
    (h : ∀ l ∈ lines, isStreamInf (TrimSpace l) = false) :
    bodyLines lines = allBodyLines lines := by
  unfold bodyLines allBodyLines
  rw [dropRedirects_noInf _ (fun l hl => h l (List.mem_of_mem_tail hl))]

theorem parseLines_fuel (lines : List Str) : parseLines lines ≠ .outOfFuel := by
  cases lines with
  | nil => rw [parseLines_nil]; exact fun h => by cases h
  | cons raw rest =>
    by_cases hh : TrimSpace raw = "#EXTM3U".toList
    · intro e
      have hp := parseLines_post raw rest hh
      rw [e] at hp
      exact hp
    · rw [parseLines_bad_header raw rest hh]
      exact fun h => by cases h

/-! ## C1: segment order -/

/-- C1, as stated, fails on a master playlist: the parse succeeds with no
segment, though the line after the stream-info tag is a trimmed non-blank line
after line 1 that does not start with `#`. -/
theorem segment_order_fails_on_redirect :
    ∃ m heap, parseLines masterManifest = .ok m heap ∧
      m.Segments.map (·.URI) = [] ∧
      (allBodyLines masterManifest).filter isSegmentLine = ["low/index.m3u8".toList] ∧
      m.Segments.map (·.URI) ≠ (allBodyLines masterManifest).filter isSegmentLine :=
  ⟨{ Segments := [], MasterPlaylistURIs := ["low/index.m3u8".toList] }, [],
    by decide, by decide, by decide, by decide⟩

/-- C1, amended: whenever `parseLines` succeeds, the segment URIs are, in source
order, the trimmed lines after line 1 that are non-blank and do not start with
`#`, leaving out each line taken as the redirect URI of the stream-info tag
line right before it; on a manifest without stream-info tag lines these are all
the non-tag lines after line 1. -/
theorem segment_order (lines : List Str) (m : M3u8) (heap : Heap)
    (h : parseLines lines = .ok m heap) :
    m.Segments.map (·.URI) = (bodyLines lines).filter isSegmentLine ∧
    ((∀ l ∈ lines, isStreamInf (TrimSpace l) = false) →
      m.Segments.map (·.URI) = (allBodyLines lines).filter isSegmentLine) := by
  have h1 : m.Segments.map (·.URI) = (bodyLines lines).filter isSegmentLine := by
    rw [(parseLines_ok lines m heap h).2.1, segsOf_uri]
  refine ⟨h1, fun hinf => ?_⟩
  rw [h1, bodyLines_noInf lines hinf]

theorem segment_order_witness :
    parseLines mixedManifest = .ok mixedPlaylist mixedHeap ∧
    (mixedPlaylist.Segments.map (·.URI) = (bodyLines mixedManifest).filter isSegmentLine ∧
     ((∀ l ∈ mixedManifest, isStreamInf (TrimSpace l) = false) →
       mixedPlaylist.Segments.map (·.URI) =
         (allBodyLines mixedManifest).filter isSegmentLine)) :=
  ⟨by decide, segment_order mixedManifest mixedPlaylist mixedHeap (by decide)⟩

/-! ## C2: keys bound to segments -/

/-- C2, as stated, fails when the nearest preceding key tag line is itself the
redirect URI of a stream-info tag: the parse succeeds, no `Key` is created and
the segment after that line has a nil `Key`. -/
theorem keys_fail_on_redirect :
    ∃ m heap, parseLines shadowedKeyManifest = .ok m heap ∧
      m.Segments = [{ URI := "seg1.ts".toList, Key := none }] ∧ heap = [] ∧
      ¬ KeysFollowTags (allBodyLines shadowedKeyManifest) m.Segments heap := by
  refine ⟨{ Segments := [{ URI := "seg1.ts".toList, Key := none }],
            MasterPlaylistURIs := ["#EXT-X-KEY:METHOD=AES-128,URI=\"key1\"".toList] }, [],
    by decide, rfl, rfl, ?_⟩
  intro hK
  obtain ⟨s, hs, _, hm⟩ := hK
    ["#EXT-X-STREAM-INF:BANDWIDTH=1280000".toList,
     "#EXT-X-KEY:METHOD=AES-128,URI=\"key1\"".toList]
    "seg1.ts".toList [] (by decide) (by decide)
  have e : (["#EXT-X-STREAM-INF:BANDWIDTH=1280000".toList,
     "#EXT-X-KEY:METHOD=AES-128,URI=\"key1\"".toList].filter isKeyTag) =
      ["#EXT-X-KEY:METHOD=AES-128,URI=\"key1\"".toList] := by decide
  rw [e] at hm
  have e2 : (["#EXT-X-STREAM-INF:BANDWIDTH=1280000".toList,
     "#EXT-X-KEY:METHOD=AES-128,URI=\"key1\"".toList].filter isSegmentLine) = [] := by decide
  rw [e2] at hs
  simp only [List.length_nil, List.getElem?_cons_zero, Option.some.injEq] at hs
  subst hs
  simp at hm

theorem keysFollowTags_shared (ls : List Str) (segs : List Segment) (heap : Heap)
    (hK : KeysFollowTags ls segs heap) (pre : List Str) (t : Str) (mid : List Str) (t2 : Str)
    (post : List Str) (hls : ls = pre ++ t :: (mid ++ t2 :: post))
    (ht : isSegmentLine t = true) (ht2 : isSegmentLine t2 = true)
    (hmid : ∀ x ∈ mid, isKeyTag x = false) :
    ∃ s s2, segs[(pre.filter isSegmentLine).length]? = some s ∧
      segs[((pre ++ t :: mid).filter isSegmentLine).length]? = some s2 ∧ s.Key = s2.Key := by
  obtain ⟨s, hs, _, hm⟩ := hK pre t (mid ++ t2 :: post) hls ht
  obtain ⟨s2, hs2, _, hm2⟩ := hK (pre ++ t :: mid) t2 post (by rw [hls]; simp) ht2
  refine ⟨s, s2, hs, hs2, ?_⟩
  have htk : isKeyTag t = false := by
    cases hx : isKeyTag t with
    | false => rfl
    | true => rw [keyTag_not_segmentLine _ hx] at ht; cases ht
  have hmidk : mid.filter isKeyTag = [] := List.filter_eq_nil_iff.mpr (fun x hx => by
    rw [hmid x hx]; exact Bool.false_ne_true)
  have e : (pre ++ t :: mid).filter isKeyTag = pre.filter isKeyTag := by
    rw [List.filter_append, List.filter_cons, htk, hmidk]
    simp
  rw [e] at hm2
  cases hg : (pre.filter isKeyTag).getLast? with
  | none =>
    rw [hg] at hm hm2
    exact hm.trans hm2.symm
  | some kt =>
    rw [hg] at hm hm2
    exact hm.1.trans hm2.1.symm

/-- C2, amended: whenever `parseLines` succeeds, each segment's `Key` is the one
created by the nearest preceding key tag line that is not itself the redirect
URI of a stream-info tag line, with that tag's METHOD, URI and IV, and is nil
when no such tag precedes the segment; two segments with no such key tag
between them hold the same key address. -/
theorem keys_follow_tags (lines : List Str) (m : M3u8) (heap : Heap)
    (h : parseLines lines = .ok m heap) :
    KeysFollowTags (bodyLines lines) m.Segments heap ∧
    (∀ pre t mid t2 post, bodyLines lines = pre ++ t :: (mid ++ t2 :: post) →
      isSegmentLine t = true → isSegmentLine t2 = true →
      (∀ x ∈ mid, isKeyTag x = false) →
      ∃ s s2, m.Segments[(pre.filter isSegmentLine).length]? = some s ∧
        m.Segments[((pre ++ t :: mid).filter isSegmentLine).length]? = some s2 ∧
        s.Key = s2.Key) := by
  have hok := parseLines_ok lines m heap h
  have hK : KeysFollowTags (bodyLines lines) m.Segments heap := by
    rw [hok.2.1, hok.2.2]
    exact keysFollowTags_segsOf _
  exact ⟨hK, fun pre t mid t2 post hls ht ht2 hmid =>
    keysFollowTags_shared _ _ _ hK pre t mid t2 post hls ht ht2 hmid⟩

theorem keys_follow_tags_witness :
    parseLines mixedManifest = .ok mixedPlaylist mixedHeap ∧
    (KeysFollowTags (bodyLines mixedManifest) mixedPlaylist.Segments mixedHeap ∧
     (∀ pre t mid t2 post, bodyLines mixedManifest = pre ++ t :: (mid ++ t2 :: post) →
       isSegmentLine t = true → isSegmentLine t2 = true →
       (∀ x ∈ mid, isKeyTag x = false) →
       ∃ s s2, mixedPlaylist.Segments[(pre.filter isSegmentLine).length]? = some s ∧
         mixedPlaylist.Segments[((pre ++ t :: mid).filter isSegmentLine).length]? = some s2 ∧
         s.Key = s2.Key)) :=
  ⟨by decide, keys_follow_tags mixedManifest mixedPlaylist mixedHeap (by decide)⟩

/-! ## C4: the header check -/

/-- C4: on the empty list of lines `parseLines` returns an empty playlist and
no error, though the header line is missing. -/
theorem empty_manifest_accepted :
    parseLines [] = .ok { Segments := [], MasterPlaylistURIs := [] } [] := by
  decide

/-- The header check on a manifest that has a first line. -/
theorem wrong_header_rejected (raw : Str) (rest : List Str)
    (h : TrimSpace raw ≠ "#EXTM3U".toList) :
    parseLines (raw :: rest) = .error .missingHeader :=
  parseLines_bad_header raw rest h

/-! ## C10: index bounds -/

/-- C10: on a manifest whose last line is a stream-info tag, `parseLines` reads
`lines[2]` of a slice of length 2, an index out of range; it returns neither a
playlist nor an error. -/
theorem trailing_streamInf_out_of_range :
    parseLines truncatedMaster = .indexOutOfRange 2 2 := by
  decide

/-! ## C5: when the parser fails -/

theorem params_get_absent (ps : Params) (k : Str) (h : ∀ e ∈ ps, e.1 ≠ k) : ps.get k = [] := by
  unfold Params.get
  have : ps.find? (fun e => e.1 == k) = none := by
    rw [List.find?_eq_none]
    intro e he
    simpa using h e he
  rw [this]

theorem params_set_ne_nil (ps : Params) (k v : Str) : ps.set k v ≠ [] := by
  unfold Params.set
  split
  · rename_i h
    intro e
    rw [List.map_eq_nil_iff] at e
    rw [e] at h
    simp at h
  · simp

theorem params_foldl_ne_nil (ms : List (Str × Str)) :
    ∀ ps : Params, ps ≠ [] →
      ms.foldl (fun params arr => Params.set params arr.1 (Trim arr.2 '"')) ps ≠ [] := by
  induction ms with
  | nil => intro ps h; exact h
  | cons a ms ih => intro ps _; exact ih _ (params_set_ne_nil _ _ _)

/-- The map of `parseLineParameters` is empty exactly when the pattern has no
match in the line. -/
theorem parseLineParameters_length (line : Str) :
    (parseLineParameters line).length = 0 ↔ FindAllStringSubmatch line = [] := by
  unfold parseLineParameters
  cases hm : FindAllStringSubmatch line with
  | nil => simp
  | cons a ms =>
    simp only [List.foldl_cons, List.length_eq_zero, reduceCtorEq, iff_false]
    exact params_foldl_ne_nil ms _ (params_set_ne_nil _ _ _)

theorem aes_tag_not_bad (t : Str)
    (hm : (parseLineParameters t).get "METHOD".toList = CryptMethodAES) :
    isBadKeyTag t = false := by
  unfold isBadKeyTag
  have hlen : (parseLineParameters t).length ≠ 0 := by
    intro e
    rw [List.length_eq_zero] at e
    rw [e] at hm
    revert hm
    decide
  simp only [hm, hlen, decide_False, Bool.false_or, ne_eq, not_true_eq_false, false_and,
    and_false, Bool.and_false]

/-- C5: on a manifest with a valid header and no stream-info tag line,
`parseLines` returns an error exactly when some line whose trimmed text starts
with `#EXT-X-KEY` yields no attribute=value pair or has a METHOD other than
empty, `AES-128` and `NONE`. A key tag with METHOD `AES-128` is never such a
line, URI or not; when it names no URI, the `Key` made for it has method
`AES-128` and an empty URI. -/
theorem key_tag_failures (lines : List Str)
    (hhdr : ∃ raw rest, lines = raw :: rest ∧ TrimSpace raw = "#EXTM3U".toList)
    (hinf : ∀ l ∈ lines, isStreamInf (TrimSpace l) = false) :
    ((∃ e, parseLines lines = .error e) ↔ ∃ l ∈ lines, isBadKeyTag (TrimSpace l) = true) ∧
    (∀ l ∈ lines, (parseLineParameters (TrimSpace l)).get "METHOD".toList = CryptMethodAES →
      isBadKeyTag (TrimSpace l) = false) ∧
    (∀ m heap, parseLines lines = .ok m heap →
      ∀ pre t post, allBodyLines lines = pre ++ t :: post → isKeyTag t = true →
        (parseLineParameters t).get "METHOD".toList = CryptMethodAES →
        (∀ e ∈ parseLineParameters t, e.1 ≠ "URI".toList) →
        ∃ k, heap[(pre.filter isKeyTag).length]? = some k ∧
          k.Method = CryptMethodAES ∧ k.URI = []) := by
  obtain ⟨raw, rest, rfl, hraw⟩ := hhdr
  have hrest : ∀ l ∈ rest, isStreamInf (TrimSpace l) = false :=
    fun l hl => hinf l (List.mem_cons_of_mem _ hl)
  have hpost := parseLines_post raw rest hraw
  have hd := dropRedirects_noInf rest hrest
  have hhead : isBadKeyTag (TrimSpace raw) = false := by rw [hraw]; decide
  refine ⟨?_, fun l _ hm => aes_tag_not_bad _ hm, ?_⟩
  · constructor
    · rintro ⟨e, he⟩
      rw [he] at hpost
      simp only [ParsePost, hd, List.any_eq_true, List.mem_map] at hpost
      obtain ⟨t, ⟨l, hl, rfl⟩, hbad⟩ := hpost
      exact ⟨l, List.mem_cons_of_mem _ hl, hbad⟩
    · rintro ⟨l, hl, hbad⟩
      have hl2 : l ∈ rest := by
        rcases List.mem_cons.mp hl with e | e
        · rw [e, hhead] at hbad; cases hbad
        · exact e
      have hany : (rest.map TrimSpace).any isBadKeyTag = true := by
        simp only [List.any_eq_true, List.mem_map]
        exact ⟨_, ⟨l, hl2, rfl⟩, hbad⟩
      cases hr : parseLines (raw :: rest) with
      | ok m hp =>
        rw [hr] at hpost
        simp only [ParsePost, hd] at hpost
        rw [hpost.1] at hany
        cases hany
      | error e => exact ⟨e, rfl⟩
      | indexOutOfRange a b =>
        rw [hr] at hpost
        obtain ⟨x, hx, hx2⟩ := hpost
        rw [hrest x hx] at hx2
        cases hx2
      | outOfFuel =>
        rw [hr] at hpost
        exact hpost.elim
  · intro m heap hok pre t post hsplit _ hm huri
    have h3 := (parseLines_ok _ m heap hok).2.2
    rw [bodyLines_noInf _ hinf, hsplit] at h3
    refine ⟨keyOfTag t, ?_, hm, params_get_absent _ _ huri⟩
    rw [h3, List.filter_append, List.map_append, List.getElem?_append_right (by simp)]
    simp [List.filter_cons, *]

theorem key_tag_failures_witness :
    ((∃ raw rest, noUriManifest = raw :: rest ∧ TrimSpace raw = "#EXTM3U".toList) ∧
     (∀ l ∈ noUriManifest, isStreamInf (TrimSpace l) = false)) ∧
    parseLines noUriManifest =
      .ok { Segments := [{ URI := "seg1.ts".toList, Key := some 0 }], MasterPlaylistURIs := [] }
          [{ URI := [], IV := [], key := [], Method := CryptMethodAES }] ∧
    (((∃ e, parseLines noUriManifest = .error e) ↔
        ∃ l ∈ noUriManifest, isBadKeyTag (TrimSpace l) = true) ∧
     (∀ l ∈ noUriManifest,
        (parseLineParameters (TrimSpace l)).get "METHOD".toList = CryptMethodAES →
        isBadKeyTag (TrimSpace l) = false) ∧
     (∀ m heap, parseLines noUriManifest = .ok m heap →
        ∀ pre t post, allBodyLines noUriManifest = pre ++ t :: post → isKeyTag t = true →
          (parseLineParameters t).get "METHOD".toList = CryptMethodAES →
          (∀ e ∈ parseLineParameters t, e.1 ≠ "URI".toList) →
          ∃ k, heap[(pre.filter isKeyTag).length]? = some k ∧
            k.Method = CryptMethodAES ∧ k.URI = [])) :=
  ⟨⟨⟨_, _, rfl, by decide⟩, by decide⟩, by decide,
    key_tag_failures noUriManifest ⟨_, _, rfl, by decide⟩ (by decide)⟩

/-! ## C9: the sync-byte scan -/

theorem syncScan_cut (pre post : Bytes) (h : syncByte ∉ pre) :
    syncScan (pre ++ syncByte :: post) = syncByte :: post := by
  unfold syncScan
  have hfind : (List.range (pre ++ syncByte :: post).length).find?
      (fun j => (pre ++ syncByte :: post)[j]? == some syncByte) = some pre.length := by
    rw [List.find?_range_eq_some]
    refine ⟨?_, by simp, ?_⟩
    · rw [List.getElem?_append_right (Nat.le_refl _)]
      simp
    intro j hj
    rw [List.getElem?_append_left hj, List.getElem?_eq_getElem hj]
    have hne : pre[j] ≠ syncByte := fun e => h (e ▸ List.getElem_mem hj)
    simpa using hne
  rw [hfind]
  simp

theorem syncScan_none (b : Bytes) (h : syncByte ∉ b) : syncScan b = b := by
  unfold syncScan
  have hfind : (List.range b.length).find? (fun j => b[j]? == some syncByte) = none := by
    rw [List.find?_range_eq_none]
    intro i hi
    rw [List.getElem?_eq_getElem hi]
    have hne : b[i] ≠ syncByte := fun e => h (e ▸ List.getElem_mem hi)
    simpa using hne
  rw [hfind]

/-- C9: the scan yields the suffix of `b` that begins at the first byte `0x47`
when `b` has one, and `b` itself when it has none. -/
theorem sync_scan_suffix (b : Bytes) :
    (∀ pre post, b = pre ++ syncByte :: post → syncByte ∉ pre →
      syncScan b = syncByte :: post) ∧
    (syncByte ∉ b → syncScan b = b) ∧
    syncByte = 0x47 :=
  ⟨fun pre post hb hpre => hb ▸ syncScan_cut pre post hpre, syncScan_none b, rfl⟩

theorem sync_scan_suffix_witness :
    syncScan [0, 255, 71, 64, 71, 3] = [71, 64, 71, 3] ∧ syncScan [1, 2, 3] = [1, 2, 3] :=
  ⟨(sync_scan_suffix [0, 255, 71, 64, 71, 3]).1 [0, 255] [64, 71, 3] rfl (by decide),
   (sync_scan_suffix [1, 2, 3]).2.1 (by decide)⟩

/-! ## C6: assembly -/

theorem tsName_ne_mainName (i : Nat) : tsName i ≠ mainName := by
  intro h
  have h2 := congrArg List.getLast? h
  simp [tsName, mainName] at h2

theorem put_put (st : Store) (name : Str) (a b : Bytes) :
    (st.put name a).put name b = st.put name b := by
  funext f
  unfold Store.put
  split <;> rfl

theorem assemble_fold (st : Store) (l : List Nat) :
    ∀ acc : Bytes,
      l.foldl assembleStep (st.put mainName acc) =
        st.put mainName (acc ++ (l.map (fun i => (st (tsName i)).getD [])).flatten) := by
  induction l with
  | nil => intro acc; simp
  | cons i l ih =>
    intro acc
    have hread : (st.put mainName acc) (tsName i) = st (tsName i) := by
      unfold Store.put
      rw [if_neg (tsName_ne_mainName i)]
    have hmain : (st.put mainName acc) mainName = some acc := by
      unfold Store.put
      rw [if_pos rfl]
    rw [List.foldl_cons]
    cases hf : st (tsName i) with
    | none =>
      have hstep : assembleStep (st.put mainName acc) i = st.put mainName acc := by
        unfold assembleStep
        rw [hread, hf]
      rw [hstep, ih acc]
      simp [hf]
    | some bytes =>
      have hstep : assembleStep (st.put mainName acc) i = st.put mainName (acc ++ bytes) := by
        unfold assembleStep
        rw [hread, hf]
        simp only [hmain, Option.getD_some]
        exact put_put st mainName acc (acc ++ bytes)
      rw [hstep, ih (acc ++ bytes)]
      simp [hf]

theorem assemble_eq (n : Nat) (st : Store) :
    assemble n st =
      st.put mainName (((List.range n).map (fun i => (st (tsName i)).getD [])).flatten) := by
  unfold assemble
  rw [assemble_fold st (List.range n) []]
  simp

/-- C6: when `0.ts` .. `N-1.ts` all exist, the assembly loop leaves the output
file holding their contents concatenated in ascending ordinal order; in general
a missing file adds no bytes and the loop goes on; the segment files are left
as they were, and a second run on them yields the same output bytes. -/
theorem assemble_concat (n : Nat) (st : Store) :
    (∀ content : Nat → Bytes, (∀ i < n, st (tsName i) = some (content i)) →
      assemble n st mainName = some (((List.range n).map content).flatten)) ∧
    assemble n st mainName =
      some (((List.range n).map (fun i => (st (tsName i)).getD [])).flatten) ∧
    (∀ i, assemble n st (tsName i) = st (tsName i)) ∧
    assemble n (assemble n st) mainName = assemble n st mainName := by
  have hmain : ∀ st2 : Store, assemble n st2 mainName =
      some (((List.range n).map (fun i => (st2 (tsName i)).getD [])).flatten) := by
    intro st2
    rw [assemble_eq]
    unfold Store.put
    rw [if_pos rfl]
  have hts : ∀ i, assemble n st (tsName i) = st (tsName i) := by
    intro i
    rw [assemble_eq]
    unfold Store.put
    rw [if_neg (tsName_ne_mainName i)]
  refine ⟨?_, hmain st, hts, ?_⟩
  · intro content hall
    rw [hmain st]
    congr 2
    apply List.map_congr_left
    intro i hi
    rw [hall i (List.mem_range.mp hi)]
    rfl
  · rw [hmain (assemble n st), hmain st]
    congr 2
    apply List.map_congr_left
    intro i _
    rw [hts i]

theorem assemble_concat_witness :
    (∀ i < 3, sampleStore (tsName i) = some (sampleContent i)) ∧
    assemble 3 sampleStore mainName = some [71, 1, 71, 2, 3] :=
  ⟨by decide, (assemble_concat 3 sampleStore).1 sampleContent (by decide)⟩

/-! ## C7: decryption failure in `downTs` -/

/-- C7, as stated, fails: with a decryption routine that returns the nil slice
next to its error, `downTs` finishes its first pass and the file holds no
bytes, not the fetched body (whose sync-stripped form is the body itself). -/
theorem decrypt_failure_drops_body :
    (failingDecrypt sampleBody (keyedResult.Keys.get 0) []).2 ≠ none ∧
    downTs failingDecrypt calmEnv keyedResult keyedSegment 1 0 = .done 0 [] ∧
    syncScan sampleBody = [71, 10, 20] ∧
    downTs failingDecrypt calmEnv keyedResult keyedSegment 1 0 ≠
      .done 0 (syncScan sampleBody) := by
  decide

/-- C7, amended: for a segment whose `Key` has a non-empty KeyMaterial entry,
when decryption of the fetched body fails `downTs` goes on with the slice the
decryption routine returned next to its error: these are the bytes it
sync-strips and writes. The failure causes no restart and no abort: the pass
ends the call when the write and the rename succeed, and restarts only when
one of those two fails. -/
theorem decrypt_failure_bytes (AES128Decrypt : Decrypt) (env : Nat → Attempt)
    (result : Result) (s : Segment) (p : KeyPtr) (k : Key) (body out : Bytes) (err : Str)
    (fuel n : Nat)
    (hkey : s.Key = some p) (hheap : result.heap[p]? = some k)
    (hmat : result.Keys.get p ≠ [])
    (hget : (env n).get = .ok (.ok body)) (hcreate : (env n).create = true)
    (hdec : AES128Decrypt body (result.Keys.get p) k.IV = (out, some err)) :
    decryptStage AES128Decrypt result s body = some out ∧
    downTs AES128Decrypt env result s (fuel + 1) n =
      if (env n).write = true ∧ (env n).rename = true then .done n (syncScan out)
      else downTs AES128Decrypt env result s fuel (n + 1) := by
  have hstage : decryptStage AES128Decrypt result s body = some out := by
    unfold decryptStage
    simp only [hkey, hmat, ne_eq, not_false_eq_true, if_true, hheap, hdec]
  refine ⟨hstage, ?_⟩
  rw [downTs]
  simp only [hget, hcreate, hstage, Bool.not_true, Bool.false_eq_true, if_false]
  cases hw : (env n).write <;> cases hr : (env n).rename <;> simp

theorem decrypt_failure_bytes_witness :
    downTs failingDecrypt calmEnv keyedResult keyedSegment 1 0 =
      if (calmEnv 0).write = true ∧ (calmEnv 0).rename = true then .done 0 (syncScan [])
      else downTs failingDecrypt calmEnv keyedResult keyedSegment 0 1 :=
  (decrypt_failure_bytes failingDecrypt calmEnv keyedResult keyedSegment 0
    { URI := "key1".toList, IV := [], key := [], Method := CryptMethodAES }
    sampleBody [] "bad key".toList 0 0 rfl rfl (by decide) rfl rfl rfl).2

/-! ## C8: the scheduler -/

theorem schedInv_init (n : Nat) : SchedInv n Sched.init := by
  simp [SchedInv, Sched.init]

theorem schedInv_step (n : Nat) (a : Action) (s s2 : Sched) (hinv : SchedInv n s)
    (hstep : step n a s = some s2) : SchedInv n s2 := by
  obtain ⟨h1, h2, h3, h4, h5, h6, h7, h8, h9, h10⟩ := hinv
  cases a with
  | launch =>
    simp only [step] at hstep
    split at hstep
    · rename_i hc
      injection hstep with hstep
      subst hstep
      have hw := h8 (by rw [hc.1]; decide)
      refine ⟨h1, h2, h3, ?_, ?_, h6, ?_, ?_, ?_, ?_⟩
      · simp only [List.length_append, List.length_singleton]; omega
      · simp only [List.length_append, List.length_singleton]; omega
      · intro _
        exact ⟨hc.2, by rw [hw, List.range_succ]⟩
      · intro hne; exact absurd rfl hne
      · intro hx; rcases hx with hx | hx <;> cases hx
      · intro hx; cases hx
    · cases hstep
  | send =>
    simp only [step] at hstep
    split at hstep
    · rename_i hc
      injection hstep with hstep
      subst hstep
      have hw := h7 hc.1
      refine ⟨?_, ?_, h3, h4, h5, ?_, ?_, ?_, ?_, ?_⟩
      · show s.tokens + 1 + s.received = s.idx + 1
        omega
      · show s.tokens + 1 ≤ limitCap
        exact hc.2
      · show s.idx + 1 ≤ n
        exact hw.1
      · intro hx; cases hx
      · intro _; exact hw.2
      · intro hx; rcases hx with hx | hx <;> cases hx
      · intro hx; cases hx
    · cases hstep
  | leaveLoop =>
    simp only [step] at hstep
    split at hstep
    · rename_i hc
      injection hstep with hstep
      subst hstep
      refine ⟨h1, h2, h3, h4, h5, h6, ?_, ?_, ?_, ?_⟩
      · intro hx; cases hx
      · intro _; exact h8 (by rw [hc.1]; decide)
      · intro _
        show s.idx = n
        have := hc.2
        omega
      · intro hx; cases hx
    · cases hstep
  | join =>
    simp only [step] at hstep
    split at hstep
    · rename_i hc
      injection hstep with hstep
      subst hstep
      refine ⟨h1, h2, h3, h4, h5, h6, ?_, ?_, ?_, ?_⟩
      · intro hx; cases hx
      · intro _; exact h8 (by rw [hc.1]; decide)
      · intro _; exact h9 (Or.inl hc.1)
      · intro _; exact hc.2
    · cases hstep
  | finish =>
    simp only [step] at hstep
    split at hstep
    · rename_i hc
      injection hstep with hstep
      subst hstep
      refine ⟨h1, h2, ?_, ?_, ?_, h6, h7, h8, h9, ?_⟩
      · show s.received ≤ s.finished + 1
        omega
      · show s.finished + 1 ≤ s.workers.length
        omega
      · show s.wg - 1 = s.workers.length - (s.finished + 1)
        omega
      · intro hx
        have := h10 hx
        show s.wg - 1 = 0
        omega
    · cases hstep
  | receive =>
    simp only [step] at hstep
    split at hstep
    · rename_i hc
      injection hstep with hstep
      subst hstep
      refine ⟨?_, ?_, ?_, h4, h5, h6, h7, h8, h9, h10⟩
      · show s.tokens - 1 + (s.received + 1) = s.idx
        omega
      · show s.tokens - 1 ≤ limitCap
        omega
      · show s.received + 1 ≤ s.finished
        omega
    · cases hstep

theorem schedInv_run (n : Nat) (as : List Action) :
    ∀ s s2, SchedInv n s → runSched n as s = some s2 → SchedInv n s2 := by
  induction as with
  | nil =>
    intro s s2 hinv h
    simp only [runSched, Option.some.injEq] at h
    exact h ▸ hinv
  | cons a as ih =>
    intro s s2 hinv h
    simp only [runSched] at h
    cases hs : step n a s with
    | none => rw [hs] at h; cases h
    | some s1 =>
      rw [hs] at h
      exact ih s1 s2 (schedInv_step n a s s1 hinv hs) h

/-- The bound the scheduler does keep: every reachable state has launched the
segments `0, 1, ..` once each in order, never more than there are segments,
all of them once the orchestrator is past the loop, and at most
`limitCap + 1` workers are launched and unfinished. -/
theorem scheduler_bound (n : Nat) (s : Sched) (h : Reachable n s) :
    s.workers = List.range s.workers.length ∧ s.workers.length ≤ n ∧
    ((s.pc = .wait ∨ s.pc = .joined) → s.workers = List.range n) ∧
    (s.pc = .joined → s.finished = n) ∧
    s.inFlight ≤ limitCap + 1 := by
  obtain ⟨as, has⟩ := h
  obtain ⟨h1, h2, h3, h4, h5, h6, h7, h8, h9, h10⟩ :=
    schedInv_run n as _ _ (schedInv_init n) has
  have hlen : s.workers.length = s.idx ∨
      (s.pc = .send ∧ s.workers.length = s.idx + 1 ∧ s.idx < n) := by
    by_cases hp : s.pc = .send
    · right
      have := h7 hp
      exact ⟨hp, by rw [this.2, List.length_range], this.1⟩
    · left
      rw [h8 hp, List.length_range]
  refine ⟨?_, ?_, ?_, ?_, ?_⟩
  · by_cases hp : s.pc = .send
    · have := (h7 hp).2
      rw [this, List.length_range]
    · have := h8 hp
      rw [this, List.length_range]
  · rcases hlen with e | ⟨_, e, hlt⟩ <;> omega
  · intro hx
    have hp : s.pc ≠ .send := by
      rcases hx with hx | hx <;> rw [hx] <;> decide
    rw [h8 hp, h9 hx]
  · intro hx
    have hp : s.pc ≠ .send := by rw [hx]; decide
    have hw := h8 hp
    have hl : s.workers.length = n := by rw [hw, List.length_range, h9 (Or.inr hx)]
    have := h10 hx
    omega
  · unfold Sched.inFlight
    rcases hlen with e | ⟨_, e, _⟩ <;> omega

theorem scheduler_bound_witness :
    Reachable 21 { pc := .loopHead, idx := 2, workers := [0, 1], wg := 1, finished := 1,
                   received := 1, tokens := 1 } ∧
    Sched.inFlight { pc := .loopHead, idx := 2, workers := [0, 1], wg := 1, finished := 1,
                     received := 1, tokens := 1 } ≤ limitCap + 1 :=
  ⟨⟨[.launch, .send, .finish, .launch, .receive, .send], by decide⟩,
   (scheduler_bound 21 _ ⟨[.launch, .send, .finish, .launch, .receive, .send], by decide⟩).2.2.2.2⟩

/-- C8: on 21 segments the schedule in which no worker finishes before the
orchestrator has launched the twenty-first reaches a state with 21 workers
launched and unfinished, one more than the capacity 20 of `limitChan`: the
worker is started before its token is sent. -/
theorem scheduler_over_limit :
    ∃ s, Reachable 21 s ∧ runSched 21 eagerSchedule Sched.init = some s ∧
      s.workers = List.range 21 ∧ s.finished = 0 ∧ s.tokens = 20 ∧
      s.inFlight = 21 ∧ limitCap < s.inFlight :=
  ⟨{ pc := .send, idx := 20, workers := List.range 21, wg := 21, finished := 0,
     received := 0, tokens := 20 },
    ⟨eagerSchedule, by decide⟩, by decide, rfl, rfl, rfl, by decide, by decide⟩

/-! ## C3: key resolution -/

theorem mem_firstRefs (l : List KeyPtr) : ∀ p, p ∈ firstRefs l ↔ p ∈ l := by
  induction l with
  | nil => intro p; simp [firstRefs]
  | cons a l ih =>
    intro p
    simp only [firstRefs, List.mem_cons, List.mem_filter, ih, bne_iff_ne, ne_eq]
    constructor
    · rintro (h | ⟨h, _⟩)
      · exact Or.inl h
      · exact Or.inr h
    · rintro (h | h)
      · exact Or.inl h
      · by_cases e : p = a
        · exact Or.inl e
        · exact Or.inr ⟨h, e⟩

theorem nodup_firstRefs (l : List KeyPtr) : (firstRefs l).Nodup := by
  induction l with
  | nil => simp [firstRefs]
  | cons a l ih =>
    simp only [firstRefs, List.nodup_cons, List.mem_filter, bne_self_eq_false,
      Bool.false_eq_true, and_false, not_false_eq_true, true_and]
    exact ih.filter _

theorem aesRefs_cons_none (heap : Heap) (seg : Segment) (segs : List Segment)
    (h : seg.Key = none) : aesRefs heap (seg :: segs) = aesRefs heap segs := by
  simp [aesRefs, List.filterMap_cons, h]

theorem aesRefs_cons_aes (heap : Heap) (seg : Segment) (segs : List Segment) (p : KeyPtr)
    (k : Key) (h : seg.Key = some p) (hk : heap[p]? = some k) (hm : k.Method = CryptMethodAES) :
    aesRefs heap (seg :: segs) = p :: aesRefs heap segs := by
  simp [aesRefs, List.filterMap_cons, h, List.filter_cons, hk, hm]

theorem aesRefs_cons_other (heap : Heap) (seg : Segment) (segs : List Segment) (p : KeyPtr)
    (k : Key) (h : seg.Key = some p) (hk : heap[p]? = some k) (hm : k.Method ≠ CryptMethodAES) :
    aesRefs heap (seg :: segs) = aesRefs heap segs := by
  simp [aesRefs, List.filterMap_cons, h, List.filter_cons, hk, hm]

theorem keyTable_has_append (keys : KeyTable) (p q : KeyPtr) (b : Bytes) :
    KeyTable.has (keys ++ [(p, b)]) q = (keys.has q || p == q) := by
  simp [KeyTable.has]

theorem fromURL_keyLoop_spec (ResolveURL : Str → Str → Str) (Get : Fetch) (u : Str)
    (heap : Heap) (segs : List Segment) :
    ∀ (keys : KeyTable) (log : List Str),
      (∀ s ∈ segs, ∀ p, s.Key = some p → ∃ k, heap[p]? = some k ∧
        (k.Method = [] ∨ k.Method = CryptMethodNONE ∨ k.Method = CryptMethodAES)) →
      (∀ p ∈ aesRefs heap segs, fetchSucceeds Get (keyURL ResolveURL u heap p) = true) →
      fromURL_keyLoop ResolveURL Get u heap segs keys log =
        (.ok (keys ++ ((firstRefs (aesRefs heap segs)).filter (fun p => !keys.has p)).map
            (fun p => (p, fetchedBytes Get (keyURL ResolveURL u heap p)))),
         log ++ ((firstRefs (aesRefs heap segs)).filter (fun p => !keys.has p)).map
            (keyURL ResolveURL u heap)) := by
  induction segs with
  | nil =>
    intro keys log _ _
    simp [fromURL_keyLoop, aesRefs, firstRefs]
  | cons seg segs ih =>
    intro keys log hwf hfetch
    have hwf2 : ∀ s ∈ segs, ∀ p, s.Key = some p → ∃ k, heap[p]? = some k ∧
        (k.Method = [] ∨ k.Method = CryptMethodNONE ∨ k.Method = CryptMethodAES) :=
      fun s hs => hwf s (List.mem_cons_of_mem _ hs)
    cases hkey : seg.Key with
    | none =>
      rw [aesRefs_cons_none heap seg segs hkey] at hfetch ⊢
      simp only [fromURL_keyLoop, hkey]
      exact ih keys log hwf2 hfetch
    | some p =>
      obtain ⟨k, hk, hmeth⟩ := hwf seg (List.mem_cons_self _ _) p hkey
      by_cases haes : k.Method = CryptMethodAES
      · have hne : ¬ (k.Method = [] ∨ k.Method = CryptMethodNONE) := by
          rw [haes]; decide
        rw [aesRefs_cons_aes heap seg segs p k hkey hk haes] at hfetch ⊢
        have hfetch2 : ∀ q ∈ aesRefs heap segs,
            fetchSucceeds Get (keyURL ResolveURL u heap q) = true :=
          fun q hq => hfetch q (List.mem_cons_of_mem _ hq)
        simp only [fromURL_keyLoop, hkey, hk, if_neg hne, if_pos haes]
        by_cases hhas : keys.has p = true
        · rw [if_pos hhas, ih keys log hwf2 hfetch2]
          have hfil : (firstRefs (p :: aesRefs heap segs)).filter (fun q => !keys.has q) =
              (firstRefs (aesRefs heap segs)).filter (fun q => !keys.has q) := by
            simp only [firstRefs, List.filter_cons, hhas, Bool.not_true, Bool.false_eq_true,
              if_false, List.filter_filter]
            apply List.filter_congr
            intro q _
            by_cases e : q = p
            · subst e; simp [hhas]
            · simp [e]
          rw [hfil]
        · rw [if_neg hhas]
          have hp := hfetch p (List.mem_cons_self _ _)
          have hurl : keyURL ResolveURL u heap p = ResolveURL u k.URI := by
            simp [keyURL, hk]
          rw [hurl] at hp
          have hhas2 : keys.has p = false := by simpa using hhas
          cases hg : Get (ResolveURL u k.URI) with
          | error e => simp [fetchSucceeds, hg] at hp
          | ok resp =>
            cases resp with
            | error e => simp [fetchSucceeds, hg] at hp
            | ok keyByte =>
              have hset : keys.set p keyByte = keys ++ [(p, keyByte)] := by
                simp [KeyTable.set, hhas2]
              simp only [hset]
              rw [ih (keys ++ [(p, keyByte)]) (log ++ [ResolveURL u k.URI]) hwf2 hfetch2]
              have hfil : (firstRefs (p :: aesRefs heap segs)).filter (fun q => !keys.has q) =
                  p :: (firstRefs (aesRefs heap segs)).filter
                    (fun q => !KeyTable.has (keys ++ [(p, keyByte)]) q) := by
                simp only [firstRefs, List.filter_cons, hhas2, Bool.not_false, if_true,
                  List.filter_filter]
                congr 1
                apply List.filter_congr
                intro q _
                rw [keyTable_has_append]
                by_cases e : q = p
                · subst e; simp
                · have e2 : ¬ p = q := fun x => e x.symm
                  have h1 : (q != p) = true := by simpa using e
                  have h2 : (p == q) = false := by simpa using e2
                  rw [h1, h2]
                  cases keys.has q <;> rfl
              rw [hfil]
              simp [hurl, fetchedBytes, hg]
      · have hskip : k.Method = [] ∨ k.Method = CryptMethodNONE := by
          rcases hmeth with h | h | h
          · exact Or.inl h
          · exact Or.inr h
          · exact absurd h haes
        rw [aesRefs_cons_other heap seg segs p k hkey hk haes] at hfetch ⊢
        simp only [fromURL_keyLoop, hkey, hk, if_pos hskip]
        exact ih keys log hwf2 hfetch

theorem segsOf_key_bound (ls : List Str) :
    ∀ (cur : Option KeyPtr) (next : Nat) (s : Segment), s ∈ segsOf cur next ls →
      s.Key = cur ∨
        ∃ q : Nat, s.Key = some q ∧ next ≤ q ∧ q < next + (ls.filter isKeyTag).length := by
  induction ls with
  | nil => intro cur next s hs; simp [segsOf] at hs
  | cons t ts ih =>
    intro cur next s hs
    by_cases hseg : isSegmentLine t = true
    · have hk : isKeyTag t = false := by
        cases hx : isKeyTag t with
        | false => rfl
        | true => rw [keyTag_not_segmentLine _ hx] at hseg; cases hseg
      simp only [segsOf, hseg, if_true, List.mem_cons] at hs
      simp only [List.filter_cons, hk, Bool.false_eq_true, if_false]
      rcases hs with e | hs
      · exact Or.inl (by rw [e])
      · exact ih cur next s hs
    · by_cases hk : isKeyTag t = true
      · simp only [segsOf, hseg, hk, if_true, if_false, Bool.false_eq_true] at hs
        simp only [List.filter_cons, hk, if_true, List.length_cons]
        right
        rcases ih (some next) (next + 1) s hs with e | ⟨q, e, h1, h2⟩
        · exact ⟨next, e, Nat.le_refl _, by omega⟩
        · exact ⟨q, e, by omega, by omega⟩
      · simp only [segsOf, hseg, hk, if_false, Bool.false_eq_true] at hs
        simp only [List.filter_cons, hk, Bool.false_eq_true, if_false]
        exact ih cur next s hs

theorem goodKeyTag_method (t : Str) (hk : isKeyTag t = true) (hb : isBadKeyTag t = false) :
    (keyOfTag t).Method = [] ∨ (keyOfTag t).Method = CryptMethodNONE ∨
      (keyOfTag t).Method = CryptMethodAES := by
  unfold isBadKeyTag at hb
  simp only [hk, Bool.true_and, Bool.or_eq_false_iff, decide_eq_false_iff_not] at hb
  have h2 := hb.2
  show (parseLineParameters t).get "METHOD".toList = [] ∨
    (parseLineParameters t).get "METHOD".toList = CryptMethodNONE ∨
    (parseLineParameters t).get "METHOD".toList = CryptMethodAES
  by_cases e1 : (parseLineParameters t).get "METHOD".toList = []
  · exact Or.inl e1
  · by_cases e2 : (parseLineParameters t).get "METHOD".toList = CryptMethodAES
    · exact Or.inr (Or.inr e2)
    · by_cases e3 : (parseLineParameters t).get "METHOD".toList = CryptMethodNONE
      · exact Or.inr (Or.inl e3)
      · exact absurd ⟨e1, e2, e3⟩ h2

/-- The `Key` pointers of a parsed playlist point into its heap, at records
whose method is empty, `NONE` or `AES-128`. -/
theorem parseLines_keys_valid (lines : List Str) (m : M3u8) (heap : Heap)
    (h : parseLines lines = .ok m heap) :
    ∀ s ∈ m.Segments, ∀ p, s.Key = some p → ∃ k, heap[p]? = some k ∧
      (k.Method = [] ∨ k.Method = CryptMethodNONE ∨ k.Method = CryptMethodAES) := by
  obtain ⟨hbad, hsegs, hheap⟩ := parseLines_ok lines m heap h
  intro s hs p hp
  rw [hsegs] at hs
  rcases segsOf_key_bound _ none 0 s hs with e | ⟨q, e, _, hq⟩
  · rw [hp] at e; cases e
  · rw [hp] at e
    injection e with e
    subst e
    have hlt : p < ((bodyLines lines).filter isKeyTag).length := by simpa using hq
    refine ⟨keyOfTag (((bodyLines lines).filter isKeyTag)[p]), ?_, ?_⟩
    · rw [hheap, List.getElem?_map, List.getElem?_eq_getElem hlt]
      rfl
    · have hmem : ((bodyLines lines).filter isKeyTag)[p] ∈ (bodyLines lines).filter isKeyTag :=
        List.getElem_mem hlt
      rw [List.mem_filter] at hmem
      have hnb : isBadKeyTag ((bodyLines lines).filter isKeyTag)[p] = false := by
        cases hx : isBadKeyTag ((bodyLines lines).filter isKeyTag)[p] with
        | false => rfl
        | true =>
          have : (bodyLines lines).any isBadKeyTag = true :=
            List.any_eq_true.mpr ⟨_, hmem.1, hx⟩
          rw [hbad] at this
          cases this
      exact goodKeyTag_method _ hmem.2 hnb

theorem mem_aesRefs (heap : Heap) (segs : List Segment) (p : KeyPtr) :
    p ∈ aesRefs heap segs ↔
      ∃ s ∈ segs, s.Key = some p ∧ ∃ k, heap[p]? = some k ∧ k.Method = CryptMethodAES := by
  unfold aesRefs
  rw [List.mem_filter, List.mem_filterMap]
  constructor
  · rintro ⟨⟨s, hs, hk⟩, hm⟩
    refine ⟨s, hs, hk, ?_⟩
    cases hh : heap[p]? with
    | none => simp [hh] at hm
    | some k => exact ⟨k, rfl, by simpa [hh] using hm⟩
  · rintro ⟨s, hs, hk, k, hh, hm⟩
    exact ⟨⟨s, hs, hk⟩, by simp [hh, hm]⟩

/-- C3: on a parsed playlist with at least one segment, when every fetch of an
`AES-128` key succeeds, the key loop requests exactly the key URLs of the
distinct `AES-128` keys the segments reference, each once, in order of first
reference, and the table it returns has exactly those keys, each with the bytes
fetched for it. A segment whose `Key` is nil or has an empty or `NONE` method
adds nothing; with no key at all the table is empty and nothing is fetched. -/
theorem key_loop_fetches (ResolveURL : Str → Str → Str) (Get : Fetch) (u : Str)
    (lines : List Str) (m : M3u8) (heap : Heap)
    (hparse : parseLines lines = .ok m heap) (hseg : m.Segments ≠ [])
    (hfetch : ∀ p ∈ aesRefs heap m.Segments,
      fetchSucceeds Get (keyURL ResolveURL u heap p) = true) :
    fromURL_media ResolveURL Get u m heap =
      (.ok ((firstRefs (aesRefs heap m.Segments)).map
          (fun p => (p, fetchedBytes Get (keyURL ResolveURL u heap p)))),
       (firstRefs (aesRefs heap m.Segments)).map (keyURL ResolveURL u heap)) ∧
    (firstRefs (aesRefs heap m.Segments)).Nodup ∧
    (∀ p, p ∈ firstRefs (aesRefs heap m.Segments) ↔
      ∃ s ∈ m.Segments, s.Key = some p ∧
        ∃ k, heap[p]? = some k ∧ k.Method = CryptMethodAES) ∧
    ((∀ s ∈ m.Segments, s.Key = none) →
      fromURL_media ResolveURL Get u m heap = (.ok [], [])) := by
  have hlen : ¬ m.Segments.length = 0 := fun e => hseg (List.length_eq_zero.mp e)
  have hloop := fromURL_keyLoop_spec ResolveURL Get u heap m.Segments [] []
    (parseLines_keys_valid lines m heap hparse) hfetch
  have hall : ∀ l : List KeyPtr, l.filter (fun p => !KeyTable.has [] p) = l := by
    intro l
    apply List.filter_eq_self.mpr
    intro a _
    rfl
  have hres : fromURL_media ResolveURL Get u m heap =
      (.ok ((firstRefs (aesRefs heap m.Segments)).map
          (fun p => (p, fetchedBytes Get (keyURL ResolveURL u heap p)))),
       (firstRefs (aesRefs heap m.Segments)).map (keyURL ResolveURL u heap)) := by
    unfold fromURL_media
    rw [if_neg hlen, hloop, hall]
    simp
  refine ⟨hres, nodup_firstRefs _, ?_, ?_⟩
  · intro p
    rw [mem_firstRefs, mem_aesRefs]
  · intro hnone
    have hempty : aesRefs heap m.Segments = [] := by
      apply List.eq_nil_iff_forall_not_mem.mpr
      intro p hp
      obtain ⟨s, hs, hk, _⟩ := (mem_aesRefs heap m.Segments p).mp hp
      rw [hnone s hs] at hk
      cases hk
    rw [hres, hempty]
    rfl

theorem key_loop_fetches_witness :
    parseLines keyedManifest = .ok keyedPlaylist keyedHeap ∧
    fromURL_media plainResolve keyServer [] keyedPlaylist keyedHeap =
      (.ok [(0, [1, 2, 3])], ["key1".toList]) :=
  ⟨by decide,
   (key_loop_fetches plainResolve keyServer [] keyedManifest keyedPlaylist keyedHeap
      (by decide) (by decide) (by decide)).1.trans (by decide)⟩

end Hls

